import Mathlib

/-!
Verification of the LinDB broker-side write pipeline (repository ZHAOLIANKE/lindb).

This file gives a shallow embedding, in Lean 4, of the parts of the source
code that the specification's claims are about:

* `series/metric/row_broker.go` — broker row batches, out-of-time-range
  eviction, the two-level (shard, then time-family) grouping iterators;
* `replica/channel_shard.go` — get-or-create of per-family channels;
* `tsdb/sequence.go` — reload of shard-level replica sequences;
* the remote replicator handshake and replica send loop (the implementation
  file is not part of the sampled sources; it is modelled from the
  specification, §4.7, and checked against `replica/replicator_remote_test.go`);
* Go's standard-library `sort.Sort` (pre-1.19 implementation), transcribed in
  order to analyse the stability behaviour of the family iterator's sort.

Go slices of rows are embedded as `List BrokerRow`; machine integers
(`int64`, `int`) are embedded as `Int`/`Nat` (no arithmetic in the embedded
fragments overflows 64 bits); fallible calls return `Except`/`Bool` flags;
the stateful iterators are embedded as explicit state records with step
functions, driven by the canonical client loop with explicit fuel.
-/

namespace LinDB

/-! ## Data model: broker rows (series/metric/row_broker.go)

A `BrokerRow` carries a framed flat-encoded metric.  The embedding keeps the
raw buffer as a list of bytes, and reflects the two accessors of the inner
flat metric `row.m` that the broker core reads — `Timestamp()` and `Hash()` —
as plain fields `timestamp` and `hash`. -/

structure BrokerRow where
  /-- value of `row.m.Timestamp()` (epoch milliseconds) -/
  timestamp : Int
  /-- value of `row.m.Hash()` (64-bit xxhash) -/
  hash : Nat
  /-- the raw size-prefixed flat block held by `row.buffer` -/
  buffer : List Nat
  /-- Go `row.ShardID`, stamped by `NewShardGroupIterator` -/
  ShardID : Int
  /-- Go `row.IsOutOfTimeRange`: data is not accessible when set to true -/
  IsOutOfTimeRange : Bool
  deriving DecidableEq, Repr

instance : Inhabited BrokerRow := ⟨⟨0, 0, [], 0, false⟩⟩

/-- A decoded flat block, as handed to `BrokerRow.FromBlock`: the raw bytes
plus the timestamp and hash that `row.m.Init` makes readable from them. -/
structure FlatBlock where
  bytes : List Nat
  ts : Int
  hashVal : Nat
  deriving DecidableEq, Repr

/-- Go `BrokerRow.FromBlock` copies the block into the row's buffer and
re-initialises the inner flat metric from it.  Per the source comment,
the shard id is NOT overwritten, and the `IsOutOfTimeRange` flag is not
touched either. -/
def BrokerRow.FromBlock (row : BrokerRow) (block : FlatBlock) : BrokerRow :=
  { row with buffer := block.bytes, timestamp := block.ts, hash := block.hashVal }

/-- Go `BrokerRow.Size`: zero for an out-of-time-range row, else the buffer length. -/
def BrokerRow.Size (row : BrokerRow) : Nat :=
  if row.IsOutOfTimeRange then 0 else row.buffer.length

/-- Go `BrokerRow.WriteTo`: writes nothing and returns 0 for an out-of-time-range
row, else appends the buffer to the sink and returns the byte count.  The
`io.Writer` sink is embedded as the list of bytes written so far. -/
def BrokerRow.WriteTo (row : BrokerRow) (sink : List Nat) : Nat × List Nat :=
  if row.IsOutOfTimeRange then (0, sink)
  else (row.buffer.length, sink ++ row.buffer)

/-! ## Data model: broker batches -/

/-- Go `BrokerBatchRows` holds rows from ingestion: a backing slot slice `rows`
and the number `rowCount` of committed rows. -/
structure BrokerBatchRows where
  rows : List BrokerRow
  rowCount : Nat
  deriving DecidableEq, Repr

/-- Go `reset` of a batch taken from the pool: only the row count is zeroed;
the backing row slots keep all of their previous contents. -/
def BrokerBatchRows.reset (br : BrokerBatchRows) : BrokerBatchRows :=
  { br with rowCount := 0 }

/-- Go `NewBrokerBatchRows` when `sync.Pool.Get` returns a previously released
batch `item`: the batch is reset and returned. -/
def NewBrokerBatchRowsFromPool (item : BrokerBatchRows) : BrokerBatchRows :=
  item.reset

/-- Go `BrokerBatchRows.Len`. -/
def BrokerBatchRows.Len (br : BrokerBatchRows) : Nat := br.rowCount

/-- Go `BrokerBatchRows.Rows` = `br.rows[:br.rowCount]`. -/
def BrokerBatchRows.Rows (br : BrokerBatchRows) : List BrokerRow :=
  br.rows.take br.rowCount

/-- The eviction predicate of `EvictOutOfTimeRange`: row timestamp below
`now-behind` (when `behind > 0`) or above `now+ahead` (when `ahead > 0`).
`now` is the value read from `fasttime.UnixMilliseconds()`. -/
def outOfRangePred (now behind ahead : Int) (ts : Int) : Bool :=
  (behind > 0 && ts < now - behind) || (ahead > 0 && ts > now + ahead)

/-- The marking loop of `EvictOutOfTimeRange`, over indices
`0 ≤ idx < br.Len()`: set `IsOutOfTimeRange` and count when the row's
timestamp is out of the acceptable range. -/
def evictLoop (now behind ahead : Int) (rowCount : Nat) :
    Nat → List BrokerRow → Nat → Nat → Nat × List BrokerRow
  | 0, rows, _, evicted => (evicted, rows)
  | fuel + 1, rows, idx, evicted =>
    if idx < rowCount then
      let row := rows.getD idx default
      if outOfRangePred now behind ahead row.timestamp then
        evictLoop now behind ahead rowCount fuel
          (rows.set idx { row with IsOutOfTimeRange := true }) (idx + 1) (evicted + 1)
      else
        evictLoop now behind ahead rowCount fuel rows (idx + 1) evicted
    else (evicted, rows)

/-- Go `BrokerBatchRows.EvictOutOfTimeRange` marks every committed row whose
timestamp is outside the acceptable range as invalid and returns the number
of rows it marked. -/
def BrokerBatchRows.EvictOutOfTimeRange (br : BrokerBatchRows)
    (now behind ahead : Int) : Nat × BrokerBatchRows :=
  let r := evictLoop now behind ahead br.rowCount br.rowCount br.rows 0 0
  (r.1, { br with rows := r.2 })

/-- Go `BrokerBatchRows.TryAppend`: reserve the slot at index `rowCount`
(growing the backing slice with a zero row if needed), run the caller's
builder on that slot in place, and commit (increment `rowCount`) only when
the builder succeeds.  The builder is embedded as a function from the old
slot contents to an error flag and the mutated slot contents. -/
def BrokerBatchRows.TryAppend (br : BrokerBatchRows)
    (appendFunc : BrokerRow → Bool × BrokerRow) : Bool × BrokerBatchRows :=
  let rows := if br.rows.length ≤ br.rowCount then br.rows ++ [default] else br.rows
  let res := appendFunc (rows.getD br.rowCount default)
  let rows2 := rows.set br.rowCount res.2
  if res.1 then (true, { br with rows := rows2 })
  else (false, { br with rows := rows2, rowCount := br.rowCount + 1 })

end LinDB

namespace LinDB

/-! ## Time families (pkg/timeutil, modelled from the spec)

The `timeutil` package is not part of the sampled sources; the pieces the
row broker uses are modelled from the specification. -/

/-- Modelled from the spec: `timeutil.TimeRange`, the family window
`familyStart..familyEnd` with inclusive bounds. -/
structure TimeRange where
  Start : Int
  End : Int
  deriving DecidableEq, Repr

/-- Modelled from the spec: `TimeRange.Contains` — membership of a timestamp
in the (inclusive) window. -/
def TimeRange.Contains (tr : TimeRange) (timestamp : Int) : Bool :=
  tr.Start ≤ timestamp && timestamp ≤ tr.End

/-- Modelled from the spec: `timeutil.IntervalCalculator`, the capability set
the family iterator obtains from the configured storage interval via
`interval.Calculator()`.  Only the four methods used by
`BrokerBatchShardFamilyIterator` are reflected. -/
structure IntervalCalculator where
  CalcSegmentTime : Int → Int
  CalcFamily : Int → Int → Int
  CalcFamilyStartTime : Int → Int → Int
  CalcFamilyEndTime : Int → Int

/-- Go `familyTimeOfTimestamp`:
`calcFamilyStartTime(calcSegmentTime(ts), calcFamily(ts, segmentTime))`. -/
def familyTimeOfTimestamp (ic : IntervalCalculator) (timestamp : Int) : Int :=
  let segmentTime := ic.CalcSegmentTime timestamp
  let family := ic.CalcFamily timestamp segmentTime
  ic.CalcFamilyStartTime segmentTime family

/-- Go `timeRangeOfTimestamp`: the family window containing `timestamp`. -/
def timeRangeOfTimestamp (ic : IntervalCalculator) (timestamp : Int) : TimeRange :=
  let segmentTime := ic.CalcSegmentTime timestamp
  let family := ic.CalcFamily timestamp segmentTime
  let familyStartTime := ic.CalcFamilyStartTime segmentTime family
  { Start := familyStartTime, End := ic.CalcFamilyEndTime familyStartTime }

/-- A calculator is coherent when its windows are exactly the fibers of
`familyTimeOfTimestamp`: a timestamp lies in the window of `t` iff it has the
same family time as `t`.  Every real interval calculator (day/month/year)
partitions the time axis this way. -/
def WindowCoherent (ic : IntervalCalculator) : Prop :=
  ∀ t t' : Int, (timeRangeOfTimestamp ic t).Contains t' = true ↔
    familyTimeOfTimestamp ic t' = familyTimeOfTimestamp ic t

/-- A calculator is monotone when the family time is monotone in the
timestamp. -/
def FamilyMonotone (ic : IntervalCalculator) : Prop :=
  ∀ t t' : Int, t ≤ t' → familyTimeOfTimestamp ic t ≤ familyTimeOfTimestamp ic t'

/-- Modelled from the spec: a concrete interval calculator with family width
10 ms (one family per segment), used to instantiate witnesses.  Family start
of `ts` is `10 * ⌊ts / 10⌋` (floor division). -/
def tenMsCalc : IntervalCalculator where
  CalcSegmentTime := fun ts => 10 * (ts / 10)
  CalcFamily := fun _ _ => 0
  CalcFamilyStartTime := fun segmentTime family => segmentTime + 10 * family
  CalcFamilyEndTime := fun familyStartTime => familyStartTime + 9

theorem tenMsCalc_familyTime (t : Int) :
    familyTimeOfTimestamp tenMsCalc t = 10 * (t / 10) := by
  simp [familyTimeOfTimestamp, tenMsCalc]

theorem tenMsCalc_windowCoherent : WindowCoherent tenMsCalc := by
  intro t t'
  simp only [timeRangeOfTimestamp, tenMsCalc, TimeRange.Contains,
    familyTimeOfTimestamp, Bool.and_eq_true, decide_eq_true_eq]
  omega

theorem tenMsCalc_familyMonotone : FamilyMonotone tenMsCalc := by
  intro t t' h
  simp only [tenMsCalc_familyTime]
  omega

end LinDB

namespace LinDB

/-! ## Shard grouping iterator (row_broker.go, `BrokerBatchShardIterator`)

`sort.Sort` is embedded as an arbitrary function `sortFn` on row lists; the
contract Go guarantees for it — the output is a permutation of the input,
sorted by the interface's `Less` — enters the theorems as hypotheses.
The Go iterators mutate their receiver; they are embedded as step functions
from state to (result, state), driven by the canonical client loop
`for itr.HasRowsForNextShard() { ... }` with explicit fuel. -/

/-- The shard-id stamping loop of `NewShardGroupIterator`:
`rows[i].ShardID = jump.Hash(rows[i].m.Hash(), numOfShards)`.  The jump hash
itself is kept abstract (`jumpHash`). -/
def stampShardIDs (jumpHash : Nat → Int → Int) (numOfShards : Int)
    (rows : List BrokerRow) : List BrokerRow :=
  rows.map fun r => { r with ShardID := jumpHash r.hash numOfShards }

/-- State of `BrokerBatchShardIterator`; `rows` is the batch's row slice
(shared with the batch in Go, carried in the state here). -/
structure BrokerBatchShardIterator where
  groupEnd : Nat
  groupStart : Nat
  groupShardID : Int
  rows : List BrokerRow
  deriving Repr

/-- Go `BrokerBatchShardIterator.Reset`: re-sorts the batch rows (by `ShardID`,
via the batch's `sort.Interface`) and rewinds the group cursor. -/
def BrokerBatchShardIterator.Reset (sortFn : List BrokerRow → List BrokerRow)
    (rows : List BrokerRow) : BrokerBatchShardIterator :=
  { groupStart := 0, groupEnd := 0, groupShardID := -1, rows := sortFn rows }

/-- The shared shape of the two group-scan loops in `row_broker.go`:
starting at index `j`, advance while the row at the cursor satisfies `p`
(`for cursor < len(rows) { if !p(rows[cursor]) { break }; cursor++ }`).
The loop advances at most `rows.length - j` times; that bound is passed as
structural fuel (the callers instantiate it exactly) so that the function
computes by kernel reduction. -/
def scanWhile (rows : List BrokerRow) (p : BrokerRow → Bool) :
    Nat → Nat → Nat
  | 0, j => j
  | fuel + 1, j =>
    if j < rows.length then
      if p (rows.getD j default) then scanWhile rows p fuel (j + 1) else j
    else j

/-- The scan loop of `HasRowsForNextShard`: advance `groupEnd` while the row
there has the current group's shard id. -/
def shardScan (rows : List BrokerRow) (sid : Int) (j : Nat) : Nat :=
  scanWhile rows (fun r => r.ShardID = sid) (rows.length - j) j

/-- Go `BrokerBatchShardIterator.HasRowsForNextShard`. -/
def BrokerBatchShardIterator.HasRowsForNextShard (itr : BrokerBatchShardIterator) :
    Bool × BrokerBatchShardIterator :=
  if itr.rows.length ≤ itr.groupEnd ∨ itr.groupStart > itr.groupEnd then (false, itr)
  else
    let sid := (itr.rows.getD itr.groupEnd default).ShardID
    let start := itr.groupEnd
    let e := shardScan itr.rows sid itr.groupEnd
    (decide (start < e),
      { itr with groupShardID := sid, groupStart := start, groupEnd := e })

/-- The row slice `itr.batch.rows[itr.groupStart:itr.groupEnd]` that
`FamilyRowsForNextShard` hands to the family iterator. -/
def BrokerBatchShardIterator.currentGroup (itr : BrokerBatchShardIterator) :
    List BrokerRow :=
  (itr.rows.drop itr.groupStart).take (itr.groupEnd - itr.groupStart)

/-- The canonical client loop over `HasRowsForNextShard`, collecting each
shard group (the slice later handed out by `FamilyRowsForNextShard`). -/
def shardGroupsLoop (itr : BrokerBatchShardIterator) : Nat → List (List BrokerRow)
  | 0 => []
  | fuel + 1 =>
    let step := itr.HasRowsForNextShard
    if step.1 then step.2.currentGroup :: shardGroupsLoop step.2 fuel else []

/-- All shard groups yielded for a batch: stamp shard ids
(`NewShardGroupIterator`), reset (sort), and drain the iterator. -/
def shardGroups (sortFn : List BrokerRow → List BrokerRow)
    (jumpHash : Nat → Int → Int) (numOfShards : Int)
    (rows : List BrokerRow) : List (List BrokerRow) :=
  let stamped := stampShardIDs jumpHash numOfShards rows
  shardGroupsLoop (BrokerBatchShardIterator.Reset sortFn stamped) (stamped.length + 1)

/-! ## Family grouping iterator (row_broker.go, `BrokerBatchShardFamilyIterator`) -/

/-- State of `BrokerBatchShardFamilyIterator`. -/
structure BrokerBatchShardFamilyIterator where
  groupEnd : Nat
  groupStart : Nat
  groupFamilyTime : Int
  sameFamily : Bool
  rows : List BrokerRow
  intervalCalc : IntervalCalculator

/-- Go `isSameFamily`: true when every row's timestamp lies in the family window
of the first row's timestamp; as a side effect sets `groupFamilyTime` to the
first row's family time. -/
def BrokerBatchShardFamilyIterator.isSameFamily
    (itr : BrokerBatchShardFamilyIterator) : Bool × BrokerBatchShardFamilyIterator :=
  match itr.rows with
  | [] => (true, itr)
  | r0 :: rest =>
    let firstTimestamp := r0.timestamp
    let itr := { itr with
      groupFamilyTime := familyTimeOfTimestamp itr.intervalCalc firstTimestamp }
    let timeRange := timeRangeOfTimestamp itr.intervalCalc firstTimestamp
    (rest.all fun r => timeRange.Contains r.timestamp, itr)

/-- Go `BrokerBatchShardFamilyIterator.reset` on a shard slice: rewind, check the
same-family fast path, and otherwise sort the slice by timestamp
(`sort.Sort(itr.rows)` on `familySortedRows`, embedded as `sortFn`). -/
def BrokerBatchShardFamilyIterator.reset (sortFn : List BrokerRow → List BrokerRow)
    (rows : List BrokerRow) (ic : IntervalCalculator) :
    BrokerBatchShardFamilyIterator :=
  let itr : BrokerBatchShardFamilyIterator :=
    { groupEnd := 0, groupStart := 0, rows := rows, intervalCalc := ic,
      groupFamilyTime := 0, sameFamily := false }
  let s := itr.isSameFamily
  if s.1 then { s.2 with sameFamily := true }
  else { s.2 with sameFamily := false, rows := sortFn s.2.rows }

/-- The scan loop of `HasNextFamily`: advance `groupEnd` while the row's
timestamp stays inside the current family window. -/
def famScan (rows : List BrokerRow) (timeRange : TimeRange) (j : Nat) : Nat :=
  scanWhile rows (fun r => timeRange.Contains r.timestamp) (rows.length - j) j

/-- Go `BrokerBatchShardFamilyIterator.HasNextFamily`. -/
def BrokerBatchShardFamilyIterator.HasNextFamily
    (itr : BrokerBatchShardFamilyIterator) : Bool × BrokerBatchShardFamilyIterator :=
  if itr.rows.length ≤ itr.groupEnd ∨ itr.groupStart > itr.groupEnd then (false, itr)
  else if itr.sameFamily then
    (true, { itr with groupEnd := itr.rows.length, groupStart := 0 })
  else
    let firstTimestamp := (itr.rows.getD itr.groupEnd default).timestamp
    let timeRange := timeRangeOfTimestamp itr.intervalCalc firstTimestamp
    let start := itr.groupEnd
    let gft := familyTimeOfTimestamp itr.intervalCalc firstTimestamp
    let e := famScan itr.rows timeRange itr.groupEnd
    (decide (start < e),
      { itr with groupStart := start, groupFamilyTime := gft, groupEnd := e })

/-- Go `BrokerBatchShardFamilyIterator.NextFamily`: the current family time and
the slice `itr.rows[itr.groupStart:itr.groupEnd]`. -/
def BrokerBatchShardFamilyIterator.NextFamily
    (itr : BrokerBatchShardFamilyIterator) : Int × List BrokerRow :=
  (itr.groupFamilyTime, (itr.rows.drop itr.groupStart).take (itr.groupEnd - itr.groupStart))

/-- The canonical client loop `for itr.HasNextFamily() { itr.NextFamily() }`,
collecting the emitted (family time, group) pairs. -/
def familyGroupsLoop (itr : BrokerBatchShardFamilyIterator) :
    Nat → List (Int × List BrokerRow)
  | 0 => []
  | fuel + 1 =>
    let step := itr.HasNextFamily
    if step.1 then step.2.NextFamily :: familyGroupsLoop step.2 fuel else []

/-- All (family time, group) pairs the family iterator emits for a shard
slice `rows` handed over via `FamilyRowsForNextShard`. -/
def familyGroups (sortFn : List BrokerRow → List BrokerRow)
    (ic : IntervalCalculator) (rows : List BrokerRow) : List (Int × List BrokerRow) :=
  familyGroupsLoop (BrokerBatchShardFamilyIterator.reset sortFn rows ic) (rows.length + 1)

end LinDB

namespace LinDB

/-! ## Properties of the scan loops -/

theorem scanWhile_le (rows : List BrokerRow) (p : BrokerRow → Bool)
    (fuel j : Nat) : j ≤ scanWhile rows p fuel j := by
  induction fuel generalizing j with
  | zero => simp [scanWhile]
  | succ fuel ih =>
    rw [scanWhile]
    split
    · split
      · have := ih (j + 1)
        omega
      · omega
    · omega

theorem scanWhile_le_length (rows : List BrokerRow) (p : BrokerRow → Bool)
    (fuel j : Nat) (h : j ≤ rows.length) : scanWhile rows p fuel j ≤ rows.length := by
  induction fuel generalizing j with
  | zero => simpa [scanWhile] using h
  | succ fuel ih =>
    rw [scanWhile]
    split
    · split
      · exact ih (j + 1) (by omega)
      · omega
    · omega

theorem scanWhile_lt (rows : List BrokerRow) (p : BrokerRow → Bool) (fuel j : Nat)
    (hj : j < rows.length) (hp : p (rows.getD j default) = true)
    (hfuel : rows.length ≤ j + fuel) :
    j < scanWhile rows p fuel j := by
  match fuel with
  | 0 => omega
  | fuel + 1 =>
    rw [scanWhile, if_pos hj, if_pos hp]
    have := scanWhile_le rows p fuel (j + 1)
    omega

theorem scanWhile_mem (rows : List BrokerRow) (p : BrokerRow → Bool)
    (fuel j k : Nat) (hjk : j ≤ k) (hk : k < scanWhile rows p fuel j) :
    p (rows.getD k default) = true := by
  induction fuel generalizing j with
  | zero => simp [scanWhile] at hk; omega
  | succ fuel ih =>
    rw [scanWhile] at hk
    split at hk
    · split at hk
      · rcases Nat.eq_or_lt_of_le hjk with rfl | hlt
        · assumption
        · exact ih (j + 1) hlt hk
      · omega
    · omega

theorem scanWhile_stop (rows : List BrokerRow) (p : BrokerRow → Bool)
    (fuel j : Nat) (h : scanWhile rows p fuel j < rows.length)
    (hfuel : rows.length ≤ j + fuel) :
    p (rows.getD (scanWhile rows p fuel j) default) = false := by
  induction fuel generalizing j with
  | zero => simp [scanWhile] at h; omega
  | succ fuel ih =>
    rw [scanWhile]
    rw [scanWhile] at h
    split
    · rename_i h1
      rw [if_pos h1] at h
      split
      · rename_i h2
        rw [if_pos h2] at h
        exact ih (j + 1) h (by omega)
      · rename_i h2
        exact Bool.not_eq_true _ ▸ h2
    · rename_i h1
      rw [if_neg h1] at h
      omega

end LinDB

namespace LinDB

/-! ## Properties of row slices -/

theorem slice_append_drop (rows : List BrokerRow) (ge e : Nat)
    (h1 : ge ≤ e) :
    (rows.drop ge).take (e - ge) ++ rows.drop e = rows.drop ge := by
  have hd : rows.drop e = (rows.drop ge).drop (e - ge) := by
    rw [List.drop_drop]
    congr 1
    omega
  rw [hd, List.take_append_drop]

theorem slice_length (rows : List BrokerRow) (ge e : Nat) (h2 : e ≤ rows.length) :
    ((rows.drop ge).take (e - ge)).length = e - ge := by
  simp only [List.length_take, List.length_drop]
  omega

theorem slice_headD (rows : List BrokerRow) (ge e : Nat)
    (h1 : ge < e) (h3 : ge < rows.length) :
    ((rows.drop ge).take (e - ge)).headD default = rows.getD ge default := by
  rw [List.drop_eq_getElem_cons h3]
  have he : e - ge = (e - ge - 1) + 1 := by omega
  rw [he, List.take_succ_cons, List.headD_cons, List.getD_eq_getElem _ _ h3]

theorem slice_mem (rows : List BrokerRow) (ge e : Nat) (r : BrokerRow)
    (hr : r ∈ (rows.drop ge).take (e - ge)) :
    ∃ k, ge ≤ k ∧ k < e ∧ k < rows.length ∧ rows.getD k default = r := by
  obtain ⟨i, hi, hget⟩ := List.mem_iff_getElem.mp hr
  have hlen : i < e - ge ∧ i < rows.length - ge := by
    simp only [List.length_take, List.length_drop] at hi
    omega
  refine ⟨ge + i, by omega, by omega, by omega, ?_⟩
  rw [List.getD_eq_getElem _ _ (by omega)]
  rw [List.getElem_take, List.getElem_drop] at hget
  exact hget

end LinDB

namespace LinDB

/-! ## Correctness of the shard-group iteration -/

/-- Shard id of a group (its first row's shard id). -/
def groupSid (g : List BrokerRow) : Int := (g.headD default).ShardID

theorem shardGroupsLoop_spec (fuel : Nat) (itr : BrokerBatchShardIterator)
    (hsorted : List.Sorted (fun a b => a.ShardID ≤ b.ShardID) itr.rows)
    (hge : itr.groupStart ≤ itr.groupEnd)
    (hfuel : itr.rows.length - itr.groupEnd < fuel) :
    (shardGroupsLoop itr fuel).flatten = itr.rows.drop itr.groupEnd
    ∧ (∀ g ∈ shardGroupsLoop itr fuel, g ≠ [])
    ∧ (∀ g ∈ shardGroupsLoop itr fuel, ∀ r ∈ g, r.ShardID = groupSid g)
    ∧ List.Chain' (fun g1 g2 => groupSid g1 < groupSid g2) (shardGroupsLoop itr fuel)
    ∧ (shardGroupsLoop itr fuel ≠ [] →
        groupSid ((shardGroupsLoop itr fuel).headD []) =
          (itr.rows.getD itr.groupEnd default).ShardID) := by
  match fuel with
  | 0 => omega
  | fuel + 1 =>
    by_cases hguard : itr.rows.length ≤ itr.groupEnd ∨ itr.groupStart > itr.groupEnd
    · have hempty : shardGroupsLoop itr (fuel + 1) = [] := by
        simp only [shardGroupsLoop, BrokerBatchShardIterator.HasRowsForNextShard,
          if_pos hguard]
        simp
      have hlen : itr.rows.length ≤ itr.groupEnd := by omega
      rw [hempty]
      refine ⟨(List.drop_eq_nil_of_le hlen).symm, by simp, by simp, by simp, by simp⟩
    · have hlt : itr.groupEnd < itr.rows.length := by omega
      set sid := (itr.rows.getD itr.groupEnd default).ShardID with hsid
      set e := shardScan itr.rows sid itr.groupEnd with he
      have hadv : itr.groupEnd < e := by
        rw [he, shardScan]
        exact scanWhile_lt _ _ _ _ hlt (by simp only [decide_eq_true_eq]) (by omega)
      have hele : e ≤ itr.rows.length := by
        rw [he, shardScan]
        exact scanWhile_le_length _ _ _ _ (by omega)
      set itr' : BrokerBatchShardIterator :=
        { itr with groupShardID := sid, groupStart := itr.groupEnd, groupEnd := e }
        with hitr'
      have hstep : shardGroupsLoop itr (fuel + 1) =
          itr'.currentGroup :: shardGroupsLoop itr' fuel := by
        simp only [shardGroupsLoop, BrokerBatchShardIterator.HasRowsForNextShard,
          if_neg hguard]
        simp only [← hsid, ← he, ← hitr', decide_eq_true_eq, hadv, if_pos]
      have hrows' : itr'.rows = itr.rows := rfl
      have hgend' : itr'.groupEnd = e := rfl
      obtain ⟨ih1, ih2, ih3, ih4, ih5⟩ :=
        shardGroupsLoop_spec fuel itr' (by rw [hrows']; exact hsorted)
          (by rw [hgend']; exact le_of_lt hadv)
          (by rw [hrows', hgend']; omega)
      rw [hrows', hgend'] at ih1 ih5
      have hcg : itr'.currentGroup =
          (itr.rows.drop itr.groupEnd).take (e - itr.groupEnd) := rfl
      have hhead : groupSid itr'.currentGroup = sid := by
        rw [hcg, groupSid, slice_headD _ _ _ hadv hlt, hsid]
      have hne : itr'.currentGroup ≠ [] := by
        rw [hcg]
        intro hnil
        have hl := congrArg List.length hnil
        rw [slice_length itr.rows itr.groupEnd e hele] at hl
        simp at hl
        omega
      rw [hstep]
      refine ⟨?_, ?_, ?_, ?_, ?_⟩
      · rw [List.flatten_cons, ih1, hcg]
        exact slice_append_drop _ _ _ (le_of_lt hadv)
      · intro g hg
        rcases List.mem_cons.mp hg with rfl | hg'
        · exact hne
        · exact ih2 g hg'
      · intro g hg r hr
        rcases List.mem_cons.mp hg with rfl | hg'
        · rw [hhead]
          rw [hcg] at hr
          obtain ⟨k, hk1, hk2, hk3, hk4⟩ := slice_mem _ _ _ _ hr
          have hmem := scanWhile_mem itr.rows (fun r => decide (r.ShardID = sid))
            (itr.rows.length - itr.groupEnd) itr.groupEnd k hk1
            (by rw [he, shardScan] at hk2; exact hk2)
          simp only [decide_eq_true_eq] at hmem
          rw [← hk4]
          exact hmem
        · exact ih3 g hg' r hr
      · rw [List.chain'_cons']
        refine ⟨?_, ih4⟩
        intro g2 hg2
        have hrest : shardGroupsLoop itr' fuel ≠ [] := by
          intro hnil
          rw [hnil] at hg2
          simp at hg2
        have hg2' : g2 = (shardGroupsLoop itr' fuel).headD [] := by
          cases hl : shardGroupsLoop itr' fuel with
          | nil => exact absurd hl hrest
          | cons a l =>
            rw [hl] at hg2
            simp only [List.head?_cons, Option.mem_def, Option.some.injEq] at hg2
            rw [← hg2]
            rfl
        have helt : e < itr.rows.length := by
          by_contra hcon
          have hdrop : itr.rows.drop e = [] := List.drop_eq_nil_of_le (by omega)
          rw [hdrop] at ih1
          cases hl : shardGroupsLoop itr' fuel with
          | nil => exact hrest hl
          | cons a l =>
            rw [hl, List.flatten_cons] at ih1
            have ha : a ≠ [] := ih2 a (by rw [hl]; exact List.mem_cons_self a l)
            rcases List.append_eq_nil.mp ih1 with ⟨h1, -⟩
            exact ha h1
        have hstop := scanWhile_stop itr.rows (fun r => decide (r.ShardID = sid))
          (itr.rows.length - itr.groupEnd) itr.groupEnd
          (by rw [he, shardScan] at helt; exact helt) (by omega)
        simp only [decide_eq_false_iff_not] at hstop
        rw [← shardScan, ← he] at hstop
        have hg2head := ih5 hrest
        rw [← hg2'] at hg2head
        have hsortle : (itr.rows.getD itr.groupEnd default).ShardID ≤
            (itr.rows.getD e default).ShardID := by
          rw [List.getD_eq_getElem _ _ hlt, List.getD_eq_getElem _ _ helt]
          exact List.pairwise_iff_getElem.mp hsorted _ _ hlt helt hadv
        rw [hhead, hg2head, hsid]
        rcases lt_or_eq_of_le hsortle with hlt2 | heq2
        · exact hlt2
        · rw [hsid] at hstop
          exact absurd heq2.symm hstop
      · intro _
        simp only [List.headD_cons]
        rw [hhead, hsid]

end LinDB

namespace LinDB

/-! ## Correctness of the family-group iteration -/

theorem familyGroupsLoop_spec (fuel : Nat) (itr : BrokerBatchShardFamilyIterator)
    (hW : WindowCoherent itr.intervalCalc)
    (hM : FamilyMonotone itr.intervalCalc)
    (hsf : itr.sameFamily = false)
    (hsorted : List.Sorted (fun a b => a.timestamp ≤ b.timestamp) itr.rows)
    (hge : itr.groupStart ≤ itr.groupEnd)
    (hfuel : itr.rows.length - itr.groupEnd < fuel) :
    ((familyGroupsLoop itr fuel).map Prod.snd).flatten = itr.rows.drop itr.groupEnd
    ∧ (∀ p ∈ familyGroupsLoop itr fuel, p.2 ≠ [])
    ∧ (∀ p ∈ familyGroupsLoop itr fuel, ∀ r ∈ p.2,
        familyTimeOfTimestamp itr.intervalCalc r.timestamp = p.1)
    ∧ List.Chain' (fun p q => p.1 < q.1) (familyGroupsLoop itr fuel)
    ∧ (familyGroupsLoop itr fuel ≠ [] →
        ((familyGroupsLoop itr fuel).headD default).1 =
          familyTimeOfTimestamp itr.intervalCalc
            (itr.rows.getD itr.groupEnd default).timestamp) := by
  match fuel with
  | 0 => omega
  | fuel + 1 =>
    by_cases hguard : itr.rows.length ≤ itr.groupEnd ∨ itr.groupStart > itr.groupEnd
    · have hempty : familyGroupsLoop itr (fuel + 1) = [] := by
        simp only [familyGroupsLoop, BrokerBatchShardFamilyIterator.HasNextFamily,
          if_pos hguard]
        simp
      have hlen : itr.rows.length ≤ itr.groupEnd := by omega
      rw [hempty]
      refine ⟨(List.drop_eq_nil_of_le hlen).symm, by simp, by simp, by simp, by simp⟩
    · have hlt : itr.groupEnd < itr.rows.length := by omega
      set t0 := (itr.rows.getD itr.groupEnd default).timestamp with ht0
      set tr0 := timeRangeOfTimestamp itr.intervalCalc t0 with htr0
      set gft := familyTimeOfTimestamp itr.intervalCalc t0 with hgft
      set e := famScan itr.rows tr0 itr.groupEnd with he
      have hadv : itr.groupEnd < e := by
        rw [he, famScan]
        refine scanWhile_lt _ _ _ _ hlt ?_ (by omega)
        rw [← ht0, htr0]
        exact (hW t0 t0).mpr rfl
      have hele : e ≤ itr.rows.length := by
        rw [he, famScan]
        exact scanWhile_le_length _ _ _ _ (by omega)
      set itr' : BrokerBatchShardFamilyIterator :=
        { itr with groupStart := itr.groupEnd, groupFamilyTime := gft, groupEnd := e,
                   sameFamily := false }
        with hitr'
      have hstep : familyGroupsLoop itr (fuel + 1) =
          itr'.NextFamily :: familyGroupsLoop itr' fuel := by
        simp only [familyGroupsLoop, BrokerBatchShardFamilyIterator.HasNextFamily,
          if_neg hguard, hsf]
        simp only [Bool.false_eq_true, if_false, ← ht0, ← htr0, ← hgft, ← he,
          ← hitr', decide_eq_true_eq, hadv, if_pos]
      have hrows' : itr'.rows = itr.rows := rfl
      have hgend' : itr'.groupEnd = e := rfl
      have hic' : itr'.intervalCalc = itr.intervalCalc := rfl
      obtain ⟨ih1, ih2, ih3, ih4, ih5⟩ :=
        familyGroupsLoop_spec fuel itr' hW hM rfl hsorted
          (by rw [hgend']; exact le_of_lt hadv)
          (by rw [hrows', hgend']; omega)
      rw [hrows', hgend'] at ih1 ih5
      have hnf : itr'.NextFamily =
          (gft, (itr.rows.drop itr.groupEnd).take (e - itr.groupEnd)) := rfl
      have hne : ((itr.rows.drop itr.groupEnd).take (e - itr.groupEnd)) ≠ [] := by
        intro hnil
        have hl := congrArg List.length hnil
        rw [slice_length itr.rows itr.groupEnd e hele] at hl
        simp at hl
        omega
      rw [hstep]
      refine ⟨?_, ?_, ?_, ?_, ?_⟩
      · rw [List.map_cons, List.flatten_cons, ih1, hnf]
        exact slice_append_drop _ _ _ (le_of_lt hadv)
      · intro p hp
        rcases List.mem_cons.mp hp with rfl | hp'
        · rw [hnf]
          exact hne
        · exact ih2 p hp'
      · intro p hp r hr
        rcases List.mem_cons.mp hp with rfl | hp'
        · rw [hnf] at hr ⊢
          simp only at hr ⊢
          obtain ⟨k, hk1, hk2, hk3, hk4⟩ := slice_mem _ _ _ _ hr
          have hmem := scanWhile_mem itr.rows (fun r => tr0.Contains r.timestamp)
            (itr.rows.length - itr.groupEnd) itr.groupEnd k hk1
            (by rw [he, famScan] at hk2; exact hk2)
          rw [hk4] at hmem
          rw [hgft]
          exact (hW t0 r.timestamp).mp (htr0 ▸ hmem)
        · exact ih3 p hp' r hr
      · rw [List.chain'_cons']
        refine ⟨?_, ih4⟩
        intro q hq
        have hrest : familyGroupsLoop itr' fuel ≠ [] := by
          intro hnil
          rw [hnil] at hq
          simp at hq
        have hq' : q = (familyGroupsLoop itr' fuel).headD default := by
          cases hl : familyGroupsLoop itr' fuel with
          | nil => exact absurd hl hrest
          | cons a l =>
            rw [hl] at hq
            simp only [List.head?_cons, Option.mem_def, Option.some.injEq] at hq
            rw [← hq]
            rfl
        have helt : e < itr.rows.length := by
          by_contra hcon
          have hdrop : itr.rows.drop e = [] := List.drop_eq_nil_of_le (by omega)
          rw [hdrop] at ih1
          cases hl : familyGroupsLoop itr' fuel with
          | nil => exact hrest hl
          | cons a l =>
            rw [hl, List.map_cons, List.flatten_cons] at ih1
            have ha : a.2 ≠ [] := ih2 a (by rw [hl]; exact List.mem_cons_self a l)
            rcases List.append_eq_nil.mp ih1 with ⟨h1, -⟩
            exact ha h1
        have hstop : tr0.Contains (itr.rows.getD e default).timestamp = false :=
          scanWhile_stop itr.rows (fun r => tr0.Contains r.timestamp)
            (itr.rows.length - itr.groupEnd) itr.groupEnd
            (by rw [he, famScan] at helt; exact helt) (by omega)
        have hqhead := ih5 hrest
        rw [← hq', hic'] at hqhead
        have hsortle : t0 ≤ (itr.rows.getD e default).timestamp := by
          rw [ht0, List.getD_eq_getElem _ _ hlt, List.getD_eq_getElem _ _ helt]
          exact List.pairwise_iff_getElem.mp hsorted _ _ hlt helt hadv
        have hfle : gft ≤ familyTimeOfTimestamp itr.intervalCalc
            (itr.rows.getD e default).timestamp := by
          rw [hgft]
          exact hM _ _ hsortle
        have hfne : familyTimeOfTimestamp itr.intervalCalc
            (itr.rows.getD e default).timestamp ≠ gft := by
          intro heq
          have hcont : tr0.Contains (itr.rows.getD e default).timestamp = true :=
            (hW t0 (itr.rows.getD e default).timestamp).mpr (by rw [heq, hgft])
          rw [hcont] at hstop
          simp at hstop
        have : itr'.NextFamily.1 = gft := by rw [hnf]
        rw [this, hqhead]
        omega
      · intro _
        simp only [List.headD_cons, hnf]

end LinDB

namespace LinDB

/-! ## Top-level iteration properties -/

theorem familyGroupsLoop_sameFamily (itr : BrokerBatchShardFamilyIterator)
    (hsf : itr.sameFamily = true) (hrows : itr.rows ≠ [])
    (hge : itr.groupEnd = 0) (hgs : itr.groupStart = 0) (k : Nat) :
    familyGroupsLoop itr (k + 2) = [(itr.groupFamilyTime, itr.rows)] := by
  have hlen : 0 < itr.rows.length := List.length_pos.mpr hrows
  have hguard : ¬(itr.rows.length ≤ itr.groupEnd ∨ itr.groupStart > itr.groupEnd) := by
    omega
  have hstep1 : itr.HasNextFamily =
      (true, { itr with groupEnd := itr.rows.length, groupStart := 0 }) := by
    simp only [BrokerBatchShardFamilyIterator.HasNextFamily, if_neg hguard, hsf,
      if_pos]
  set itr1 : BrokerBatchShardFamilyIterator :=
    { itr with groupEnd := itr.rows.length, groupStart := 0 } with hitr1
  have hstep2 : itr1.HasNextFamily = (false, itr1) := by
    simp only [BrokerBatchShardFamilyIterator.HasNextFamily]
    rw [if_pos (by left; rfl)]
  have h1 : familyGroupsLoop itr (k + 2) =
      itr1.NextFamily :: familyGroupsLoop itr1 (k + 1) := by
    simp only [familyGroupsLoop, hstep1]
    simp
  have h2 : familyGroupsLoop itr1 (k + 1) = [] := by
    simp only [familyGroupsLoop, hstep2]
    simp
  rw [h1, h2]
  have hnf : itr1.NextFamily = (itr.groupFamilyTime, itr.rows) := by
    simp only [BrokerBatchShardFamilyIterator.NextFamily, hitr1]
    rw [List.drop_zero, Nat.sub_zero, List.take_length]
  rw [hnf]

/-- The specification of the family iterator's output on a shard slice `S`:
the groups concatenate to a permutation of `S`, all groups are non-empty,
every row of a group has that group's emitted family time, and the emitted
family times are strictly ascending. -/
def FamilyIterationOK (ic : IntervalCalculator) (S : List BrokerRow)
    (ps : List (Int × List BrokerRow)) : Prop :=
  ((ps.map Prod.snd).flatten).Perm S
  ∧ (∀ p ∈ ps, p.2 ≠ [])
  ∧ (∀ p ∈ ps, ∀ r ∈ p.2, familyTimeOfTimestamp ic r.timestamp = p.1)
  ∧ List.Chain' (fun p q => p.1 < q.1) ps

/-- C1.  For every shard slice `S` handed to the family iterator via
`FamilyRowsForNextShard`, and for every window-coherent, monotone interval
calculator and every sorting routine obeying the `sort.Sort` contract
(permutation, sorted by timestamp): the emitted groups concatenate to a
permutation of `S`, every group is non-empty, every group lies (with its
emitted family time) inside one family window, and family times are emitted
in strictly ascending order. -/
theorem familyIterator_groups_spec (sortFn : List BrokerRow → List BrokerRow)
    (ic : IntervalCalculator) (S : List BrokerRow)
    (hW : WindowCoherent ic) (hM : FamilyMonotone ic)
    (hperm : ∀ l, (sortFn l).Perm l)
    (hsorted : ∀ l, List.Sorted (fun a b => a.timestamp ≤ b.timestamp) (sortFn l)) :
    FamilyIterationOK ic S (familyGroups sortFn ic S) := by
  match S with
  | [] =>
    have hval : familyGroups sortFn ic [] = [] := rfl
    rw [hval]
    exact ⟨List.Perm.refl _, by simp, by simp, by simp⟩
  | r0 :: rest =>
    set S := r0 :: rest with hS
    set itr0 : BrokerBatchShardFamilyIterator :=
      { groupEnd := 0, groupStart := 0, rows := S, intervalCalc := ic,
        groupFamilyTime := 0, sameFamily := false } with hitr0
    have hisf : itr0.isSameFamily =
        (rest.all fun r => (timeRangeOfTimestamp ic r0.timestamp).Contains r.timestamp,
          { itr0 with groupFamilyTime := familyTimeOfTimestamp ic r0.timestamp }) := rfl
    by_cases hsame :
        (rest.all fun r => (timeRangeOfTimestamp ic r0.timestamp).Contains r.timestamp) = true
    · have hreset : BrokerBatchShardFamilyIterator.reset sortFn S ic =
          { itr0 with groupFamilyTime := familyTimeOfTimestamp ic r0.timestamp,
                      sameFamily := true } := by
        simp only [BrokerBatchShardFamilyIterator.reset, ← hitr0, hisf, hsame, if_pos]
      have hlen : S.length + 1 = S.length - 1 + 2 := by
        rw [hS]
        simp
      have hval : familyGroups sortFn ic S =
          [(familyTimeOfTimestamp ic r0.timestamp, S)] := by
        rw [familyGroups, hreset, hlen]
        exact familyGroupsLoop_sameFamily _ rfl (by simp [hitr0, hS]) rfl rfl _
      rw [hval]
      refine ⟨by simp, by simp, ?_, by simp⟩
      intro p hp r hr
      rcases List.mem_singleton.mp hp with rfl
      simp only
      rcases List.mem_cons.mp hr with rfl | hr'
      · rfl
      · have hc := List.all_eq_true.mp hsame r hr'
        exact (hW r0.timestamp r.timestamp).mp hc
    · have hreset : BrokerBatchShardFamilyIterator.reset sortFn S ic =
          { itr0 with groupFamilyTime := familyTimeOfTimestamp ic r0.timestamp,
                      sameFamily := false, rows := sortFn S } := by
        simp only [BrokerBatchShardFamilyIterator.reset, ← hitr0, hisf, hsame,
          Bool.false_eq_true, if_false]
      set itr1 : BrokerBatchShardFamilyIterator :=
        { itr0 with groupFamilyTime := familyTimeOfTimestamp ic r0.timestamp,
                    sameFamily := false, rows := sortFn S } with hitr1
      have hlen : (sortFn S).length = S.length := (hperm S).length_eq
      obtain ⟨c1, c2, c3, c4, -⟩ :=
        familyGroupsLoop_spec (S.length + 1) itr1 hW hM rfl (hsorted S)
          (le_refl 0) (by simp only [hitr1]; omega)
      have hval : familyGroups sortFn ic S = familyGroupsLoop itr1 (S.length + 1) := by
        rw [familyGroups, hreset]
      rw [hval]
      refine ⟨?_, c2, c3, c4⟩
      have : itr1.rows.drop itr1.groupEnd = sortFn S := by
        simp only [hitr1, List.drop_zero]
      rw [this] at c1
      rw [c1]
      exact hperm S

end LinDB

namespace LinDB

/-- The specification of the shard-group iteration on a stamped batch:
the groups concatenate exactly to the sorted batch (hence visit each row
exactly once, and group sizes sum to the batch size), every group is a
non-empty run of one shard id, consecutive groups carry strictly increasing
shard ids (maximality of the runs), and an empty batch yields no groups. -/
def ShardIterationOK (stamped sorted : List BrokerRow)
    (gs : List (List BrokerRow)) : Prop :=
  gs.flatten = sorted
  ∧ gs.flatten.Perm stamped
  ∧ (gs.map List.length).sum = stamped.length
  ∧ (∀ g ∈ gs, g ≠ [])
  ∧ (∀ g ∈ gs, ∀ r ∈ g, r.ShardID = groupSid g)
  ∧ List.Chain' (fun g1 g2 => groupSid g1 < groupSid g2) gs
  ∧ (stamped = [] → gs = [])

/-- C2.  For every batch and every sorting routine obeying the `sort.Sort`
contract for the batch's `Less` (sorted by shard id, a permutation), the
shard-group iteration decomposes the sorted batch into its maximal runs of
equal shard ids: they concatenate to the whole sorted batch, each is
non-empty with one shard id, group sizes sum to the batch length, and an
empty batch yields zero shard groups. -/
theorem shardIterator_groups_spec (sortFn : List BrokerRow → List BrokerRow)
    (jumpHash : Nat → Int → Int) (numOfShards : Int) (rows : List BrokerRow)
    (hperm : ∀ l, (sortFn l).Perm l)
    (hsorted : ∀ l, List.Sorted (fun a b => a.ShardID ≤ b.ShardID) (sortFn l)) :
    ShardIterationOK (stampShardIDs jumpHash numOfShards rows)
      (sortFn (stampShardIDs jumpHash numOfShards rows))
      (shardGroups sortFn jumpHash numOfShards rows) := by
  set stamped := stampShardIDs jumpHash numOfShards rows with hstamped
  have hlen : (sortFn stamped).length = stamped.length := (hperm stamped).length_eq
  set itr0 := BrokerBatchShardIterator.Reset sortFn stamped with hitr0
  have hval : shardGroups sortFn jumpHash numOfShards rows =
      shardGroupsLoop itr0 (stamped.length + 1) := rfl
  obtain ⟨c1, c2, c3, c4, -⟩ :=
    shardGroupsLoop_spec (stamped.length + 1) itr0 (hsorted stamped) (le_refl 0)
      (by simp only [hitr0, BrokerBatchShardIterator.Reset]; omega)
  have hflat : (shardGroupsLoop itr0 (stamped.length + 1)).flatten = sortFn stamped := by
    rw [c1]
    rfl
  have hpermc : (shardGroupsLoop itr0 (stamped.length + 1)).flatten.Perm stamped := by
    rw [hflat]
    exact hperm stamped
  refine ⟨?_, ?_, ?_, ?_, ?_, ?_, ?_⟩ <;> rw [hval]
  · exact hflat
  · exact hpermc
  · have := congrArg List.length hflat
    rw [List.length_flatten] at this
    rw [this, hlen]
  · exact c2
  · exact c3
  · exact c4
  · intro hnil
    have hempty : (shardGroupsLoop itr0 (stamped.length + 1)).flatten = [] := by
      rw [hflat, hnil]
      exact List.length_eq_zero.mp (by simpa using (hperm []).length_eq)
    cases hl : shardGroupsLoop itr0 (stamped.length + 1) with
    | nil => rfl
    | cons a l =>
      rw [hl, List.flatten_cons] at hempty
      have ha : a ≠ [] := c2 a (by rw [hl]; exact List.mem_cons_self a l)
      rcases List.append_eq_nil.mp hempty with ⟨h1, -⟩
      exact absurd h1 ha

end LinDB

namespace LinDB

/-! ## Correctness of out-of-range eviction (claim C7) -/

theorem getD_set_self (l : List BrokerRow) (i : Nat) (v : BrokerRow)
    (h : i < l.length) : (l.set i v).getD i default = v := by
  rw [List.getD_eq_getElem _ _ (by simpa using h)]
  simp [List.getElem_set]

theorem getD_set_ne (l : List BrokerRow) (i j : Nat) (v : BrokerRow)
    (h : i ≠ j) : (l.set i v).getD j default = l.getD j default := by
  simp [List.getD_eq_getElem?_getD, List.getElem?_set_ne h]

theorem evictLoop_spec (now behind ahead : Int) (c : Nat) (fuel idx ev : Nat)
    (rows : List BrokerRow) (hwf : c ≤ rows.length) (hfuel : c ≤ idx + fuel) :
    (evictLoop now behind ahead c fuel rows idx ev).1 =
      ev + ((rows.drop idx).take (c - idx)).countP
        (fun r => outOfRangePred now behind ahead r.timestamp)
    ∧ (evictLoop now behind ahead c fuel rows idx ev).2.length = rows.length
    ∧ (∀ i, i < idx →
        (evictLoop now behind ahead c fuel rows idx ev).2.getD i default =
          rows.getD i default)
    ∧ (∀ i, c ≤ i →
        (evictLoop now behind ahead c fuel rows idx ev).2.getD i default =
          rows.getD i default)
    ∧ (∀ i, idx ≤ i → i < c →
        (evictLoop now behind ahead c fuel rows idx ev).2.getD i default =
          (if outOfRangePred now behind ahead (rows.getD i default).timestamp then
            { rows.getD i default with IsOutOfTimeRange := true }
          else rows.getD i default)) := by
  induction fuel generalizing rows idx ev with
  | zero =>
    have hidx : c ≤ idx := by omega
    have hunfold : evictLoop now behind ahead c 0 rows idx ev = (ev, rows) := rfl
    have htake : c - idx = 0 := by omega
    refine ⟨?_, ?_, ?_, ?_, ?_⟩
    · rw [hunfold, htake]
      simp
    · rw [hunfold]
    · intro i _
      rw [hunfold]
    · intro i _
      rw [hunfold]
    · intro i hi1 hi2
      omega
  | succ fuel ih =>
    by_cases hidx : idx < c
    · have hlt : idx < rows.length := by omega
      have hdropc : rows.drop idx = rows.getD idx default :: rows.drop (idx + 1) := by
        rw [List.getD_eq_getElem _ _ hlt]
        exact (List.drop_eq_getElem_cons hlt)
      have htake : (rows.drop idx).take (c - idx) =
          rows.getD idx default :: (rows.drop (idx + 1)).take (c - (idx + 1)) := by
        rw [hdropc]
        have hcc : c - idx = (c - (idx + 1)) + 1 := by omega
        rw [hcc, List.take_succ_cons]
      by_cases hpred :
          outOfRangePred now behind ahead (rows.getD idx default).timestamp = true
      · set row' : BrokerRow :=
          { rows.getD idx default with IsOutOfTimeRange := true } with hrow'
        set rows' := rows.set idx row' with hrows'
        have hunfold : evictLoop now behind ahead c (fuel + 1) rows idx ev =
            evictLoop now behind ahead c fuel rows' (idx + 1) (ev + 1) := by
          rw [evictLoop]
          simp only [if_pos hidx, hpred, if_pos]
        have hlen' : rows'.length = rows.length := by
          rw [hrows', List.length_set]
        obtain ⟨ih1, ih2, ih3, ih4, ih5⟩ :=
          ih (idx + 1) (ev + 1) rows' (by omega) (by omega)
        have hdropeq : rows'.drop (idx + 1) = rows.drop (idx + 1) := by
          rw [hrows']
          exact List.drop_set_of_lt _ _ (by omega)
        rw [hdropeq] at ih1
        refine ⟨?_, ?_, ?_, ?_, ?_⟩
        · rw [hunfold, ih1, htake, List.countP_cons, hpred]
          simp
          omega
        · rw [hunfold, ih2, hlen']
        · intro i hi
          rw [hunfold, ih3 i (by omega), hrows', getD_set_ne _ _ _ _ (by omega)]
        · intro i hi
          rw [hunfold, ih4 i hi, hrows', getD_set_ne _ _ _ _ (by omega)]
        · intro i hi1 hi2
          rcases Nat.eq_or_lt_of_le hi1 with heq | hi3
          · rw [hunfold, ih3 i (by omega), ← heq, hrows', getD_set_self _ _ _ hlt,
              if_pos hpred, hrow']
          · rw [hunfold, ih5 i (by omega) hi2, hrows', getD_set_ne _ _ _ _ (by omega)]
      · have hunfold : evictLoop now behind ahead c (fuel + 1) rows idx ev =
            evictLoop now behind ahead c fuel rows (idx + 1) ev := by
          rw [evictLoop]
          simp only [if_pos hidx, hpred]
          simp
        obtain ⟨ih1, ih2, ih3, ih4, ih5⟩ :=
          ih (idx + 1) ev rows hwf (by omega)
        have hpredf :
            outOfRangePred now behind ahead (rows.getD idx default).timestamp = false := by
          simpa using hpred
        refine ⟨?_, ?_, ?_, ?_, ?_⟩
        · rw [hunfold, ih1, htake, List.countP_cons, hpredf]
          simp
        · rw [hunfold, ih2]
        · intro i hi
          rw [hunfold, ih3 i (by omega)]
        · intro i hi
          rw [hunfold, ih4 i hi]
        · intro i hi1 hi2
          rcases Nat.eq_or_lt_of_le hi1 with heq | hi3
          · rw [hunfold, ih3 i (by omega), ← heq, hpredf]
            simp
          · rw [hunfold, ih5 i (by omega) hi2]
    · have hunfold : evictLoop now behind ahead c (fuel + 1) rows idx ev = (ev, rows) := by
        rw [evictLoop]
        simp only [if_neg hidx]
      have htake : c - idx = 0 := by omega
      refine ⟨?_, ?_, ?_, ?_, ?_⟩
      · rw [hunfold, htake]
        simp
      · rw [hunfold]
      · intro i _
        rw [hunfold]
      · intro i _
        rw [hunfold]
      · intro i hi1 hi2
        omega

end LinDB

namespace LinDB

/-- The specification of `EvictOutOfTimeRange` on a batch: the returned count
is the number of committed rows whose timestamp is out of range; `Len()`
still counts every committed row; a committed out-of-range row is marked
(only its `IsOutOfTimeRange` flag changes) and then reports `Size() = 0` and
writes nothing; a committed in-range row is untouched; slots beyond the
committed count are untouched. -/
def EvictOK (br : BrokerBatchRows) (now behind ahead : Int) (sink : List Nat) : Prop :=
  (br.EvictOutOfTimeRange now behind ahead).1 =
    (br.rows.take br.rowCount).countP
      (fun r => outOfRangePred now behind ahead r.timestamp)
  ∧ (br.EvictOutOfTimeRange now behind ahead).2.Len = br.Len
  ∧ (∀ i, i < br.rowCount →
      outOfRangePred now behind ahead (br.rows.getD i default).timestamp = true →
      (br.EvictOutOfTimeRange now behind ahead).2.rows.getD i default =
        { br.rows.getD i default with IsOutOfTimeRange := true }
      ∧ ((br.EvictOutOfTimeRange now behind ahead).2.rows.getD i default).Size = 0
      ∧ ((br.EvictOutOfTimeRange now behind ahead).2.rows.getD i default).WriteTo sink
          = (0, sink))
  ∧ (∀ i, i < br.rowCount →
      outOfRangePred now behind ahead (br.rows.getD i default).timestamp = false →
      (br.EvictOutOfTimeRange now behind ahead).2.rows.getD i default =
        br.rows.getD i default)
  ∧ (∀ i, br.rowCount ≤ i →
      (br.EvictOutOfTimeRange now behind ahead).2.rows.getD i default =
        br.rows.getD i default)

/-- C7.  `EvictOutOfTimeRange` marks exactly the committed rows whose
timestamp violates the behind/ahead window around `now` (a non-positive
`behind`/`ahead` disables that side, via `outOfRangePred`), returns the
number of such rows, and a marked row reports `Size() = 0` and writes
nothing through `WriteTo`, while `Len()` still counts it. -/
theorem evictOutOfTimeRange_spec (br : BrokerBatchRows) (now behind ahead : Int)
    (sink : List Nat) (hwf : br.rowCount ≤ br.rows.length) :
    EvictOK br now behind ahead sink := by
  obtain ⟨h1, h2, h3, h4, h5⟩ :=
    evictLoop_spec now behind ahead br.rowCount br.rowCount 0 0 br.rows hwf (by omega)
  have hfst : (br.EvictOutOfTimeRange now behind ahead).1 =
      (evictLoop now behind ahead br.rowCount br.rowCount br.rows 0 0).1 := rfl
  have hsnd : (br.EvictOutOfTimeRange now behind ahead).2.rows =
      (evictLoop now behind ahead br.rowCount br.rowCount br.rows 0 0).2 := rfl
  refine ⟨?_, rfl, ?_, ?_, ?_⟩
  · rw [hfst, h1]
    simp
  · intro i hi hp
    have hrow := h5 i (Nat.zero_le i) hi
    rw [hp] at hrow
    simp only [eq_self_iff_true, if_true] at hrow
    rw [hsnd, hrow]
    refine ⟨rfl, rfl, ?_⟩
    simp [BrokerRow.WriteTo]
  · intro i hi hp
    have hrow := h5 i (Nat.zero_le i) hi
    rw [hp] at hrow
    simp only [Bool.false_eq_true, if_false] at hrow
    rw [hsnd, hrow]
  · intro i hi
    rw [hsnd]
    exact h4 i hi

end LinDB

namespace LinDB

/-! ## Concrete sorting routines satisfying the `sort.Sort` contract

Used to instantiate the iterator theorems on concrete inputs.  (`sort.Sort`
itself promises only a sorted permutation; any sorted permutation is an
admissible behaviour.) -/

/-- The family iterator's ordering (`familySortedRows.Less`): by timestamp. -/
def rowTsLE (a b : BrokerRow) : Prop := a.timestamp ≤ b.timestamp

instance : DecidableRel rowTsLE :=
  fun a b => inferInstanceAs (Decidable (a.timestamp ≤ b.timestamp))

instance : IsTotal BrokerRow rowTsLE := ⟨fun a b => Int.le_total a.timestamp b.timestamp⟩

instance : IsTrans BrokerRow rowTsLE := ⟨fun _ _ _ h1 h2 => le_trans h1 h2⟩

/-- The shard iterator's ordering (`BrokerBatchRows.Less`): by shard id. -/
def rowSidLE (a b : BrokerRow) : Prop := a.ShardID ≤ b.ShardID

instance : DecidableRel rowSidLE :=
  fun a b => inferInstanceAs (Decidable (a.ShardID ≤ b.ShardID))

instance : IsTotal BrokerRow rowSidLE := ⟨fun a b => Int.le_total a.ShardID b.ShardID⟩

instance : IsTrans BrokerRow rowSidLE := ⟨fun _ _ _ h1 h2 => le_trans h1 h2⟩

/-- A sorting routine by timestamp obeying the `sort.Sort` contract. -/
def tsSortRows (l : List BrokerRow) : List BrokerRow := l.insertionSort rowTsLE

theorem tsSortRows_perm (l : List BrokerRow) : (tsSortRows l).Perm l :=
  List.perm_insertionSort rowTsLE l

theorem tsSortRows_sorted (l : List BrokerRow) :
    List.Sorted (fun a b => a.timestamp ≤ b.timestamp) (tsSortRows l) :=
  List.sorted_insertionSort rowTsLE l

/-- A sorting routine by shard id obeying the `sort.Sort` contract. -/
def sidSortRows (l : List BrokerRow) : List BrokerRow := l.insertionSort rowSidLE

theorem sidSortRows_perm (l : List BrokerRow) : (sidSortRows l).Perm l :=
  List.perm_insertionSort rowSidLE l

theorem sidSortRows_sorted (l : List BrokerRow) :
    List.Sorted (fun a b => a.ShardID ≤ b.ShardID) (sidSortRows l) :=
  List.sorted_insertionSort rowSidLE l

/-! ## Witness inputs -/

/-- A shard slice realising scenario S2 of the spec: two rows at `t` and
`t + 2 × familyWidth` (here `t = 3`, width 10). -/
def sliceS2 : List BrokerRow :=
  [⟨3, 1, [1], 0, false⟩, ⟨23, 2, [2], 0, false⟩]

theorem familyIterator_groups_witness :
    familyGroups tsSortRows tenMsCalc sliceS2 =
      [(0, [⟨3, 1, [1], 0, false⟩]), (20, [⟨23, 2, [2], 0, false⟩])]
    ∧ FamilyIterationOK tenMsCalc sliceS2 (familyGroups tsSortRows tenMsCalc sliceS2) :=
  ⟨by decide,
    familyIterator_groups_spec tsSortRows tenMsCalc sliceS2
      tenMsCalc_windowCoherent tenMsCalc_familyMonotone
      tsSortRows_perm tsSortRows_sorted⟩

/-- A concrete stand-in for the jump hash used in witnesses (the iterator
properties hold for any shard-id stamping function). -/
def hashModShards (h : Nat) (numOfShards : Int) : Int := (h : Int) % numOfShards

/-- A four-row batch for the shard-group iteration witness. -/
def batchS1 : List BrokerRow :=
  [⟨0, 4, [4], 0, false⟩, ⟨0, 3, [3], 0, false⟩, ⟨0, 5, [5], 0, false⟩,
    ⟨0, 1, [1], 0, false⟩]

theorem shardIterator_groups_witness :
    shardGroups sidSortRows hashModShards 3 batchS1 =
      [[⟨0, 3, [3], 0, false⟩], [⟨0, 4, [4], 1, false⟩, ⟨0, 1, [1], 1, false⟩],
        [⟨0, 5, [5], 2, false⟩]]
    ∧ ShardIterationOK (stampShardIDs hashModShards 3 batchS1)
        (sidSortRows (stampShardIDs hashModShards 3 batchS1))
        (shardGroups sidSortRows hashModShards 3 batchS1) :=
  ⟨by decide,
    shardIterator_groups_spec sidSortRows hashModShards 3 batchS1
      sidSortRows_perm sidSortRows_sorted⟩

/-- A batch for the eviction witness: `now = 100`, `behind = 10`,
`ahead = 5`; committed rows at 50 (too old), 100 (in range), 200 (too new),
and one uncommitted slot. -/
def batchEvict : BrokerBatchRows :=
  ⟨[⟨50, 0, [7], 0, false⟩, ⟨100, 0, [8], 0, false⟩, ⟨200, 0, [9], 0, false⟩,
      ⟨40, 0, [6], 0, false⟩], 3⟩

theorem evictOutOfTimeRange_witness :
    (batchEvict.EvictOutOfTimeRange 100 10 5).1 = 2
    ∧ EvictOK batchEvict 100 10 5 [] :=
  ⟨by decide, evictOutOfTimeRange_spec batchEvict 100 10 5 [] (by decide)⟩

end LinDB

namespace LinDB

/-! ## Recycled batches from the pool (claim C10) -/

/-- The builder corresponding to decoding one flat block into a reserved
slot (`row.FromBlock(block)` inside the `TryAppend` callback); it succeeds
and never touches the slot's `IsOutOfTimeRange` flag. -/
def fromBlockBuilder (block : FlatBlock) : BrokerRow → Bool × BrokerRow :=
  fun row => (false, row.FromBlock block)

/-- The frame effect of recycling a batch through the pool: `reset` only
zeroes `rowCount` and keeps every row slot; `FromBlock` never clears
`IsOutOfTimeRange`; so appending into a reused slot whose flag is still set
commits a row that keeps the stale flag, and that row reports `Size() = 0`
and writes nothing even though its (fresh) timestamp may be in range, while
`Len()` counts it. -/
def RecycledSlotOK (b : BrokerBatchRows) (block : FlatBlock) (sink : List Nat) : Prop :=
  (NewBrokerBatchRowsFromPool b).rows = b.rows
  ∧ (NewBrokerBatchRowsFromPool b).rowCount = 0
  ∧ (∀ row : BrokerRow, (row.FromBlock block).IsOutOfTimeRange = row.IsOutOfTimeRange)
  ∧ (b.rows ≠ [] → (b.rows.getD 0 default).IsOutOfTimeRange = true →
      ((NewBrokerBatchRowsFromPool b).TryAppend (fromBlockBuilder block)).1 = false
      ∧ ((NewBrokerBatchRowsFromPool b).TryAppend (fromBlockBuilder block)).2.Len = 1
      ∧ (((NewBrokerBatchRowsFromPool b).TryAppend
            (fromBlockBuilder block)).2.rows.getD 0 default).IsOutOfTimeRange = true
      ∧ (((NewBrokerBatchRowsFromPool b).TryAppend
            (fromBlockBuilder block)).2.rows.getD 0 default).timestamp = block.ts
      ∧ (((NewBrokerBatchRowsFromPool b).TryAppend
            (fromBlockBuilder block)).2.rows.getD 0 default).Size = 0
      ∧ (((NewBrokerBatchRowsFromPool b).TryAppend
            (fromBlockBuilder block)).2.rows.getD 0 default).WriteTo sink = (0, sink))

/-- C10.  A batch recycled through `NewBrokerBatchRows` from the pool is
reset only by zeroing `rowCount`; the slots keep their contents, none of
`reset`/`TryAppend`/`FromBlock` clears `IsOutOfTimeRange`, and a reused
flagged slot commits an in-range row that still reports `Size() = 0` and is
skipped by `WriteTo`. -/
theorem recycledBatch_staleFlag_spec (b : BrokerBatchRows) (block : FlatBlock)
    (sink : List Nat) : RecycledSlotOK b block sink := by
  refine ⟨rfl, rfl, fun row => rfl, ?_⟩
  intro hne hflag
  have hlen : 0 < b.rows.length := List.length_pos.mpr hne
  set slot' : BrokerRow := (b.rows.getD 0 default).FromBlock block with hslot
  have happ : (NewBrokerBatchRowsFromPool b).TryAppend (fromBlockBuilder block) =
      (false, { b with rows := b.rows.set 0 slot', rowCount := 1 }) := by
    unfold NewBrokerBatchRowsFromPool BrokerBatchRows.reset
      BrokerBatchRows.TryAppend fromBlockBuilder
    simp only
    rw [if_neg (by omega : ¬ b.rows.length ≤ 0)]
    rfl
  have hget : (b.rows.set 0 slot').getD 0 default = slot' :=
    getD_set_self _ _ _ hlen
  have hflag' : slot'.IsOutOfTimeRange = true := by
    rw [hslot, BrokerRow.FromBlock]
    exact hflag
  rw [happ]
  refine ⟨rfl, rfl, ?_, ?_, ?_, ?_⟩
  · show ((b.rows.set 0 slot').getD 0 default).IsOutOfTimeRange = true
    rw [hget]
    exact hflag'
  · show ((b.rows.set 0 slot').getD 0 default).timestamp = block.ts
    rw [hget, hslot]
    rfl
  · show ((b.rows.set 0 slot').getD 0 default).Size = 0
    rw [hget]
    simp [BrokerRow.Size, hflag']
  · show ((b.rows.set 0 slot').getD 0 default).WriteTo sink = (0, sink)
    rw [hget]
    simp [BrokerRow.WriteTo, hflag']

/-- A previously used batch whose slot 0 still carries the out-of-range
flag, and a fresh in-range block decoded into it. -/
def recycledBatchW : BrokerBatchRows := ⟨[⟨55, 9, [9], 2, true⟩], 1⟩

theorem recycledBatch_staleFlag_witness :
    RecycledSlotOK recycledBatchW ⟨[5], 100, 7⟩ []
    ∧ ((NewBrokerBatchRowsFromPool recycledBatchW).TryAppend
        (fromBlockBuilder ⟨[5], 100, 7⟩)).2.rows = [⟨100, 7, [5], 2, true⟩] :=
  ⟨recycledBatch_staleFlag_spec recycledBatchW ⟨[5], 100, 7⟩ [], by decide⟩

end LinDB

namespace LinDB

/-! ## Remote replicator (claims C4, C5)

The implementation file (`replica/replicator_remote.go`) is not among the
sampled sources — only its unit test is.  The state machine below is
modelled from the specification (§4.7) and checked against the expectations
of `TestRemoteReplicator_IsReady` / `TestRemoteReplicator_Replica`. -/

/-- Modelled from the spec: the replicator state, one of init/ready/failed. -/
inductive ReplicatorState where
  | init
  | ready
  | failed
  deriving DecidableEq, Repr

/-- The calls the replicator makes on its collaborators (the queue, the
consumer, and the follower's replica service), in order. -/
inductive RepCall where
  | getReplicaAckIndex
  | resetFollower (ackIndex : Int)
  | setHeadSeq (v : Int)
  | setAppendSeq (v : Int)
  | ackSeq (v : Int)
  | sendMsg (replicaIndex : Int)
  | recvMsg
  deriving DecidableEq, Repr

/-- Modelled from the spec: the queue positions read during the handshake —
`headSeq = queue.headSeq()` (next to send), `tailSeq = queue.tailSeq()`
(smallest retained), `appendSeq = queue.fanOutQueue.headSeq()` (globally
appended). -/
structure QueuePositions where
  headSeq : Int
  tailSeq : Int
  appendSeq : Int
  deriving DecidableEq, Repr

/-- Modelled from the spec: outcomes of the handshake's collaborator calls
(the error-injection points of `isReady`). -/
structure HandshakeEnv where
  liveNodeFound : Bool
  createClientOk : Bool
  openStreamOk : Bool
  getAckIndexResult : Option Int
  resetOk : Bool
  setHeadSeqOk : Bool
  deriving DecidableEq, Repr

/-- Modelled from the spec (§4.7, handshake steps 1–6): `isReady`.  A ready
replicator reports ready at once.  Otherwise: resolve the live follower,
create the client, open the stream, fetch the follower's `ackIndex`, then
reconcile: nothing to do when `ackIndex + 1 = headSeq`; when
`ackIndex < tailSeq` reset the follower (failure ⇒ failed) and set the head;
when `ackIndex > appendSeq - 1` (leader lost data) call
`setAppendSeq(ackIndex+1)` and `setHeadSeq(ackIndex+1)` — a `setHeadSeq`
error here is only logged, the replicator is still ready; otherwise
`setHeadSeq(ackIndex+1)`.  Returns readiness and the calls made. -/
def isReady (state : ReplicatorState) (env : HandshakeEnv)
    (q : QueuePositions) : Bool × List RepCall :=
  if state = ReplicatorState.ready then (true, [])
  else if env.liveNodeFound = false then (false, [])
  else if env.createClientOk = false then (false, [])
  else if env.openStreamOk = false then (false, [])
  else
    match env.getAckIndexResult with
    | none => (false, [RepCall.getReplicaAckIndex])
    | some ackIndex =>
      if ackIndex + 1 = q.headSeq then (true, [RepCall.getReplicaAckIndex])
      else if ackIndex < q.tailSeq then
        if env.resetOk = false then
          (false, [RepCall.getReplicaAckIndex, RepCall.resetFollower ackIndex])
        else
          (true, [RepCall.getReplicaAckIndex, RepCall.resetFollower ackIndex,
            RepCall.setHeadSeq (ackIndex + 1)])
      else if ackIndex > q.appendSeq - 1 then
        (true, [RepCall.getReplicaAckIndex, RepCall.setAppendSeq (ackIndex + 1),
          RepCall.setHeadSeq (ackIndex + 1)])
      else
        (true, [RepCall.getReplicaAckIndex, RepCall.setHeadSeq (ackIndex + 1)])

/-- C4.  In the handshake, when the follower's `ackIndex` exceeds the
leader's `appendSeq - 1` (leader lost data) — and the earlier steps
succeeded, no other reconciliation branch applies — the replicator calls
`setAppendSeq(ackIndex+1)` on the underlying log and `setHeadSeq(ackIndex+1)`
on the consumer, and reports ready; `env.setHeadSeqOk` is unconstrained, so
this holds in particular when the `setHeadSeq` call returns an error. -/
theorem isReady_leaderLostData (state : ReplicatorState) (env : HandshakeEnv)
    (q : QueuePositions) (ackIndex : Int)
    (hstate : state ≠ ReplicatorState.ready)
    (hlive : env.liveNodeFound = true) (hcli : env.createClientOk = true)
    (hstream : env.openStreamOk = true)
    (hack : env.getAckIndexResult = some ackIndex)
    (hhead : ackIndex + 1 ≠ q.headSeq)
    (htail : ¬ ackIndex < q.tailSeq)
    (happend : ackIndex > q.appendSeq - 1) :
    isReady state env q =
      (true, [RepCall.getReplicaAckIndex, RepCall.setAppendSeq (ackIndex + 1),
        RepCall.setHeadSeq (ackIndex + 1)]) := by
  rw [isReady, if_neg hstate, if_neg (by rw [hlive]; simp),
    if_neg (by rw [hcli]; simp), if_neg (by rw [hstream]; simp), hack]
  simp only [if_neg hhead, if_neg htail, if_pos happend]

/-- The scenario of `TestRemoteReplicator_IsReady` case 8: leader has
`appendSeq = 5`, consumer `headSeq = 12`, `tailSeq = 9`, follower reports
`ackIndex = 10`, and the `setHeadSeq` call fails; the replicator still calls
`setAppendSeq 11` and `setHeadSeq 11` and is ready. -/
theorem isReady_leaderLostData_witness :
    isReady ReplicatorState.init
      ⟨true, true, true, some 10, true, false⟩ ⟨12, 9, 5⟩ =
      (true, [RepCall.getReplicaAckIndex, RepCall.setAppendSeq 11,
        RepCall.setHeadSeq 11]) :=
  isReady_leaderLostData ReplicatorState.init
    ⟨true, true, true, some 10, true, false⟩ ⟨12, 9, 5⟩ 10
    (by decide) rfl rfl rfl rfl (by decide) (by decide) (by decide)

/-- Modelled from the spec: outcomes of the stream calls made by
`replica(seq, bytes)`. -/
structure ReplicaEnv where
  sendOk : Bool
  recvResult : Option Int
  deriving DecidableEq, Repr

/-- Modelled from the spec (§4.7): `replica(seq, bytes)` — send the message,
then `recv()`; on success `queue.ack(response.ackIndex)`; on either error
transition to failed and return without acking. -/
def replica (seq : Int) (env : ReplicaEnv) : ReplicatorState × List RepCall :=
  if env.sendOk = false then (ReplicatorState.failed, [RepCall.sendMsg seq])
  else
    match env.recvResult with
    | none => (ReplicatorState.failed, [RepCall.sendMsg seq, RepCall.recvMsg])
    | some ackIndex =>
      (ReplicatorState.ready,
        [RepCall.sendMsg seq, RepCall.recvMsg, RepCall.ackSeq ackIndex])

/-- The specification of one `replica(seq, bytes)` call: an ack is issued
iff both the send and the recv succeed; on a send error only the send
happened and the state is failed; on a recv error no ack happened and the
state is failed; on success exactly `ack(response.ackIndex)` is issued. -/
def ReplicaCallOK (seq : Int) (env : ReplicaEnv) : Prop :=
  ((∃ v, RepCall.ackSeq v ∈ (replica seq env).2) ↔
    env.sendOk = true ∧ env.recvResult ≠ none)
  ∧ (env.sendOk = false →
      replica seq env = (ReplicatorState.failed, [RepCall.sendMsg seq]))
  ∧ (env.sendOk = true → env.recvResult = none →
      replica seq env =
        (ReplicatorState.failed, [RepCall.sendMsg seq, RepCall.recvMsg]))
  ∧ (∀ v, env.sendOk = true → env.recvResult = some v →
      replica seq env =
        (ReplicatorState.ready,
          [RepCall.sendMsg seq, RepCall.recvMsg, RepCall.ackSeq v]))

/-- C5.  For every `replica(seq, bytes)` call: the consumer's ack is invoked
iff both send and recv succeed, and on either error the replicator performs
no ack and transitions to the failed state. -/
theorem replica_ack_iff_success (seq : Int) (env : ReplicaEnv) :
    ReplicaCallOK seq env := by
  obtain ⟨sendOk, recvResult⟩ := env
  cases sendOk <;> cases recvResult <;>
    simp [ReplicaCallOK, replica]

/-- The three cases of `TestRemoteReplicator_Replica`: send error (no ack),
recv error (no ack), and success with `ackIndex = 1` (exactly `Ack(1)`). -/
theorem replica_ack_iff_success_witness :
    replica 1 ⟨false, none⟩ = (ReplicatorState.failed, [RepCall.sendMsg 1])
    ∧ replica 1 ⟨true, none⟩ =
        (ReplicatorState.failed, [RepCall.sendMsg 1, RepCall.recvMsg])
    ∧ replica 1 ⟨true, some 1⟩ =
        (ReplicatorState.ready,
          [RepCall.sendMsg 1, RepCall.recvMsg, RepCall.ackSeq 1]) :=
  ⟨(replica_ack_iff_success 1 ⟨false, none⟩).2.1 rfl,
    (replica_ack_iff_success 1 ⟨true, none⟩).2.2.1 rfl rfl,
    (replica_ack_iff_success 1 ⟨true, some 1⟩).2.2.2 1 rfl rfl⟩

end LinDB

namespace LinDB

/-! ## Shard-level replica sequence reload (tsdb/sequence.go, claim C8) -/

/-- Modelled from the spec: `queue.Sequence`, a per-peer cursor with a head
position (next to deliver) and a persisted ack position.  (The `pkg/queue`
package is not among the sampled sources; only these two positions and
their accessors are needed by `tsdb/sequence.go`.) -/
structure Sequence where
  headSeq : Int
  ackSeq : Int
  deriving DecidableEq, Repr

/-- Go `Sequence.SetHeadSeq`. -/
def Sequence.SetHeadSeq (s : Sequence) (v : Int) : Sequence := { s with headSeq := v }

/-- Go `Sequence.GetAckSeq`. -/
def Sequence.GetAckSeq (s : Sequence) : Int := s.ackSeq

/-- The shard-level replica sequence: its `sequenceMap` of per-peer
sequences, keyed by remote peer. -/
structure ReplicaSequenceState where
  sequenceMap : List (String × Sequence)
  deriving DecidableEq, Repr

/-- The load loop of `newReplicaSequence` over the peers listed in the
existing directory: load each peer's persisted sequence (`newSequenceFunc`,
which may fail and aborts the whole construction), reset its head to the
persisted ack — `seq.SetHeadSeq(seq.GetAckSeq())` — and store it. -/
def loadReplicaSequences (remotePeers : List String)
    (newSequenceFunc : String → Except Unit Sequence) :
    Except Unit (List (String × Sequence)) :=
  match remotePeers with
  | [] => Except.ok []
  | peer :: rest =>
    match newSequenceFunc peer with
    | Except.error e => Except.error e
    | Except.ok seq =>
      match loadReplicaSequences rest newSequenceFunc with
      | Except.error e => Except.error e
      | Except.ok m => Except.ok ((peer, seq.SetHeadSeq seq.GetAckSeq) :: m)

/-- Go `newReplicaSequence`: when the replica directory exists, reload every
per-peer sequence from it (resetting heads); for a fresh shard start with an
empty map.  The final `syncSequence()` persists the cursors and does not
change them; it is not reflected in this state. -/
def newReplicaSequence (dirExists : Bool) (remotePeers : List String)
    (newSequenceFunc : String → Except Unit Sequence) :
    Except Unit ReplicaSequenceState :=
  if dirExists then
    match loadReplicaSequences remotePeers newSequenceFunc with
    | Except.error e => Except.error e
    | Except.ok m => Except.ok ⟨m⟩
  else Except.ok ⟨[]⟩

/-- The startup invariant after a reload: every entry of the sequence map
came from a successful load of its peer's persisted sequence and has its
head reset to that persisted ack position (`headSeq = ackSeq`). -/
def ReloadedHeadsOK (newSequenceFunc : String → Except Unit Sequence)
    (ss : ReplicaSequenceState) : Prop :=
  ∀ p ∈ ss.sequenceMap, ∃ s0, newSequenceFunc p.1 = Except.ok s0
    ∧ p.2 = s0.SetHeadSeq s0.GetAckSeq
    ∧ p.2.headSeq = s0.ackSeq ∧ p.2.ackSeq = s0.ackSeq

theorem loadReplicaSequences_spec (newSequenceFunc : String → Except Unit Sequence)
    (remotePeers : List String) (m : List (String × Sequence))
    (hok : loadReplicaSequences remotePeers newSequenceFunc = Except.ok m) :
    ∀ p ∈ m, ∃ s0, newSequenceFunc p.1 = Except.ok s0
      ∧ p.2 = s0.SetHeadSeq s0.GetAckSeq
      ∧ p.2.headSeq = s0.ackSeq ∧ p.2.ackSeq = s0.ackSeq := by
  induction remotePeers generalizing m with
  | nil =>
    rw [loadReplicaSequences] at hok
    cases hok
    intro p hp
    simp at hp
  | cons peer rest ih =>
    rw [loadReplicaSequences] at hok
    cases hload : newSequenceFunc peer with
    | error e =>
      rw [hload] at hok
      cases hok
    | ok s0 =>
      rw [hload] at hok
      cases hrest : loadReplicaSequences rest newSequenceFunc with
      | error e =>
        rw [hrest] at hok
        cases hok
      | ok m' =>
        rw [hrest] at hok
        cases hok
        intro p hp
        rcases List.mem_cons.mp hp with rfl | hp'
        · exact ⟨s0, hload, rfl, rfl, rfl⟩
        · exact ih m' hrest p hp'

/-- C8.  When a shard-level replica sequence is loaded from an existing
directory at startup, every per-peer sequence in the resulting map has its
head position reset to its persisted ack position (`headSeq := ackSeq`). -/
theorem newReplicaSequence_resetsHeads
    (remotePeers : List String) (newSequenceFunc : String → Except Unit Sequence)
    (ss : ReplicaSequenceState)
    (hok : newReplicaSequence true remotePeers newSequenceFunc = Except.ok ss) :
    ReloadedHeadsOK newSequenceFunc ss := by
  rw [newReplicaSequence, if_pos rfl] at hok
  cases hload : loadReplicaSequences remotePeers newSequenceFunc with
  | error e =>
    rw [hload] at hok
    cases hok
  | ok m =>
    rw [hload] at hok
    cases hok
    exact loadReplicaSequences_spec newSequenceFunc remotePeers m hload

/-- A persisted state for the reload witness: peer `a` has head 7 / ack 3,
peer `b` has head 9 / ack 5. -/
def persistedSeqW : String → Except Unit Sequence :=
  fun peer => if peer = "a" then Except.ok ⟨7, 3⟩ else Except.ok ⟨9, 5⟩

theorem newReplicaSequence_resetsHeads_witness :
    newReplicaSequence true ["a", "b"] persistedSeqW =
      Except.ok ⟨[("a", ⟨3, 3⟩), ("b", ⟨5, 5⟩)]⟩
    ∧ ReloadedHeadsOK persistedSeqW ⟨[("a", ⟨3, 3⟩), ("b", ⟨5, 5⟩)]⟩ :=
  ⟨rfl, newReplicaSequence_resetsHeads ["a", "b"] persistedSeqW
    ⟨[("a", ⟨3, 3⟩), ("b", ⟨5, 5⟩)]⟩ rfl⟩

end LinDB

namespace LinDB

/-! ## Shard channel family map (replica/channel_shard.go, claim C9)

`channel.GetOrCreateFamilyChannel` is in the sampled sources; the
`familyChannelSet` container it uses is not and is modelled from the spec as
a familyTime-keyed association map with a read (`GetFamilyChannel`) and an
insert under the shard-channel mutex (`InsertFamily`).  The embedding is
sequential: the mutex plus load-under-lock double-check make each call
atomic, so a call sees the map state left by the previous one. -/

/-- A family channel, identified by the creation parameters
`newFamilyChannel` receives that distinguish it: database, shard id and
family time. -/
structure FamilyChannel where
  database : String
  shardID : Int
  familyTime : Int
  deriving DecidableEq, Repr

/-- Modelled from the spec: `familyChannelSet.GetFamilyChannel` — the
lock-free map read. -/
def GetFamilyChannel : List (Int × FamilyChannel) → Int → Option FamilyChannel
  | [], _ => none
  | (ft, fc) :: rest, familyTime =>
    if ft = familyTime then some fc else GetFamilyChannel rest familyTime

/-- Modelled from the spec: `familyChannelSet.InsertFamily` — insert a new
entry (only ever called after the double-check missed). -/
def InsertFamily (families : List (Int × FamilyChannel)) (familyTime : Int)
    (fc : FamilyChannel) : List (Int × FamilyChannel) :=
  (familyTime, fc) :: families

/-- Go `newFamilyChannel`, reduced to the identifying parameters. -/
def newFamilyChannel (database : String) (shardID : Int) (familyTime : Int) :
    FamilyChannel :=
  ⟨database, shardID, familyTime⟩

/-- The state of a shard channel that `GetOrCreateFamilyChannel` touches. -/
structure ShardChannelState where
  database : String
  shardID : Int
  families : List (Int × FamilyChannel)
  deriving DecidableEq, Repr

/-- Go `channel.GetOrCreateFamilyChannel`: lock-free fast path via the map
read; on a miss, take the mutex, re-check, and only then create and insert
a new family channel. -/
def GetOrCreateFamilyChannel (c : ShardChannelState) (familyTime : Int) :
    FamilyChannel × ShardChannelState :=
  match GetFamilyChannel c.families familyTime with
  | some familyChannel => (familyChannel, c)
  | none =>
    match GetFamilyChannel c.families familyTime with
    | some familyChannel => (familyChannel, c)
    | none =>
      let familyChannel := newFamilyChannel c.database c.shardID familyTime
      (familyChannel, { c with families := InsertFamily c.families familyTime familyChannel })

/-- Repeated calls of `GetOrCreateFamilyChannel` for the same family time,
threading the state. -/
def getOrCreateIter (c : ShardChannelState) (familyTime : Int) :
    Nat → FamilyChannel × ShardChannelState
  | 0 => GetOrCreateFamilyChannel c familyTime
  | n + 1 => GetOrCreateFamilyChannel (getOrCreateIter c familyTime n).2 familyTime

theorem getFamilyChannel_none_notMem (families : List (Int × FamilyChannel))
    (familyTime : Int) (h : GetFamilyChannel families familyTime = none) :
    familyTime ∉ families.map Prod.fst := by
  induction families with
  | nil => simp
  | cons e rest ih =>
    obtain ⟨ft, fc⟩ := e
    rw [GetFamilyChannel] at h
    by_cases hft : ft = familyTime
    · rw [if_pos hft] at h
      cases h
    · rw [if_neg hft] at h
      simp only [List.map_cons, List.mem_cons]
      rintro (h1 | h2)
      · exact hft h1.symm
      · exact ih h h2

/-- The specification of per-familyTime idempotence: every later call (any
number of them) returns the same family channel and leaves the map
unchanged, the map then resolves the family time to that channel, and the
at-most-one-entry-per-familyTime invariant is preserved. -/
def GetOrCreateOK (c : ShardChannelState) (familyTime : Int) : Prop :=
  (∀ n, getOrCreateIter c familyTime n = GetOrCreateFamilyChannel c familyTime)
  ∧ GetFamilyChannel (GetOrCreateFamilyChannel c familyTime).2.families familyTime
      = some (GetOrCreateFamilyChannel c familyTime).1
  ∧ ((c.families.map Prod.fst).Nodup →
      ((GetOrCreateFamilyChannel c familyTime).2.families.map Prod.fst).Nodup)

/-- C9.  `GetOrCreateFamilyChannel` is idempotent per family time: any
number of calls all return the same `FamilyChannel` and leave the family map
with exactly one entry for that family time (the map stays duplicate-free). -/
theorem getOrCreateFamilyChannel_idempotent (c : ShardChannelState)
    (familyTime : Int) : GetOrCreateOK c familyTime := by
  have hres : GetFamilyChannel (GetOrCreateFamilyChannel c familyTime).2.families
      familyTime = some (GetOrCreateFamilyChannel c familyTime).1 := by
    rw [GetOrCreateFamilyChannel]
    cases hget : GetFamilyChannel c.families familyTime with
    | some fc => simpa using hget
    | none =>
      simp [InsertFamily, GetFamilyChannel]
  have hstep : GetOrCreateFamilyChannel (GetOrCreateFamilyChannel c familyTime).2
      familyTime = GetOrCreateFamilyChannel c familyTime := by
    rw [GetOrCreateFamilyChannel, hres]
  refine ⟨?_, hres, ?_⟩
  · intro n
    induction n with
    | zero => rfl
    | succ n ih =>
      rw [getOrCreateIter, ih, hstep]
  · intro hnodup
    rw [GetOrCreateFamilyChannel]
    cases hget : GetFamilyChannel c.families familyTime with
    | some fc => simpa using hnodup
    | none =>
      simp only [InsertFamily, List.map_cons, List.nodup_cons]
      exact ⟨getFamilyChannel_none_notMem c.families familyTime hget, hnodup⟩

theorem getOrCreateFamilyChannel_witness :
    GetOrCreateOK ⟨"db", 1, []⟩ 12
    ∧ GetOrCreateFamilyChannel ⟨"db", 1, []⟩ 12 =
        (⟨"db", 1, 12⟩, ⟨"db", 1, [(12, ⟨"db", 1, 12⟩)]⟩)
    ∧ getOrCreateIter ⟨"db", 1, []⟩ 12 2 =
        (⟨"db", 1, 12⟩, ⟨"db", 1, [(12, ⟨"db", 1, 12⟩)]⟩) :=
  ⟨getOrCreateFamilyChannel_idempotent ⟨"db", 1, []⟩ 12, by decide, by decide⟩

end LinDB

namespace LinDB

/-! ## Go's `sort.Sort` (claim C6)

`BrokerBatchShardFamilyIterator.reset` sorts a multi-family shard slice with
`sort.Sort(itr.rows)`, the Go standard library's unstable sort.  To settle
the stability claim the pre-Go-1.19 implementation of `sort.Sort`
(`src/sort/sort.go`: `quickSort` with `insertionSort`, a gap-6 shell pass
for short ranges, `heapSort` fallback, `doPivot`/`medianOfThree`) is
transcribed below over an array of rows and a `Less` predicate, mirroring
`sort.Interface`.  Index loops are transcribed with explicit fuel chosen at
the call sites to dominate the loop bounds; for the slice lengths evaluated
here (≤ 12) only the shell pass and the insertion sort run, exactly as in
Go. -/

/-- Go `data.Swap(i, j)` (out-of-range indices never occur on the paths
exercised; they leave the array unchanged). -/
def goSwap (data : Array BrokerRow) (i j : Nat) : Array BrokerRow :=
  if h : i < data.size ∧ j < data.size then data.swap ⟨i, h.1⟩ ⟨j, h.2⟩ else data

/-- Go `data.Less(i, j)`. -/
def lessAt (less : BrokerRow → BrokerRow → Bool) (data : Array BrokerRow)
    (i j : Nat) : Bool :=
  less (data.getD i default) (data.getD j default)

/-- The inner loop of `insertionSort`:
`for j := i; j > a && data.Less(j, j-1); j-- { data.Swap(j, j-1) }`. -/
def insInner (less : BrokerRow → BrokerRow → Bool) (a : Nat) :
    Array BrokerRow → Nat → Array BrokerRow
  | data, 0 => data
  | data, j + 1 =>
    if j + 1 > a then
      if lessAt less data (j + 1) j then insInner less a (goSwap data (j + 1) j) j
      else data
    else data

/-- The outer loop of `insertionSort`: `for i := a+1; i < b; i++`. -/
def insLoop (less : BrokerRow → BrokerRow → Bool) (a b : Nat) :
    Nat → Array BrokerRow → Nat → Array BrokerRow
  | 0, data, _ => data
  | fuel + 1, data, i =>
    if i < b then insLoop less a b fuel (insInner less a data i) (i + 1) else data

/-- Go `insertionSort(data, a, b)`. -/
def insertionSortGo (less : BrokerRow → BrokerRow → Bool)
    (data : Array BrokerRow) (a b : Nat) : Array BrokerRow :=
  insLoop less a b (b + 1) data (a + 1)

/-- The loop of `siftDown(data, lo, hi, first)`. -/
def siftDownLoop (less : BrokerRow → BrokerRow → Bool) (first hi : Nat) :
    Nat → Array BrokerRow → Nat → Array BrokerRow
  | 0, data, _ => data
  | fuel + 1, data, root =>
    let child := 2 * root + 1
    if child ≥ hi then data
    else
      let child :=
        if child + 1 < hi && lessAt less data (first + child) (first + child + 1) then
          child + 1
        else child
      if ¬ lessAt less data (first + root) (first + child) then data
      else siftDownLoop less first hi fuel (goSwap data (first + root) (first + child)) child

/-- Go `siftDown(data, lo, hi, first)`. -/
def siftDownGo (less : BrokerRow → BrokerRow → Bool) (data : Array BrokerRow)
    (lo hi first : Nat) : Array BrokerRow :=
  siftDownLoop less first hi (hi + 1) data lo

/-- The heap-building loop of `heapSort`: `for i := (hi-1)/2; i >= 0; i--`. -/
def heapBuild (less : BrokerRow → BrokerRow → Bool) (first hi : Nat) :
    Array BrokerRow → Nat → Array BrokerRow
  | data, 0 => siftDownGo less data 0 hi first
  | data, i + 1 => heapBuild less first hi (siftDownGo less data (i + 1) hi first) i

/-- The pop loop of `heapSort`: `for i := hi-1; i >= 0; i--` with
`Swap(first, first+i); siftDown(data, lo, i, first)`. -/
def heapPop (less : BrokerRow → BrokerRow → Bool) (first : Nat) :
    Nat → Array BrokerRow → Array BrokerRow
  | 0, data => siftDownGo less (goSwap data first first) 0 0 first
  | i + 1, data =>
    heapPop less first i
      (siftDownGo less (goSwap data first (first + (i + 1))) 0 (i + 1) first)

/-- Go `heapSort(data, a, b)` (only reached for ranges longer than 12). -/
def heapSortGo (less : BrokerRow → BrokerRow → Bool) (data : Array BrokerRow)
    (a b : Nat) : Array BrokerRow :=
  let first := a
  let hi := b - a
  let data := heapBuild less first hi data ((hi - 1) / 2)
  if hi = 0 then data else heapPop less first (hi - 1) data

/-- Go `medianOfThree(data, m1, m0, m2)`. -/
def medianOfThreeGo (less : BrokerRow → BrokerRow → Bool)
    (data : Array BrokerRow) (m1 m0 m2 : Nat) : Array BrokerRow :=
  let data := if lessAt less data m1 m0 then goSwap data m1 m0 else data
  if lessAt less data m2 m1 then
    let data := goSwap data m2 m1
    if lessAt less data m1 m0 then goSwap data m1 m0 else data
  else data

/-- The first scan of `doPivot`: `for ; a < c && data.Less(a, pivot); a++`. -/
def pivotScanA (less : BrokerRow → BrokerRow → Bool) (data : Array BrokerRow)
    (pivot c : Nat) : Nat → Nat → Nat
  | 0, a => a
  | fuel + 1, a =>
    if a < c && lessAt less data a pivot then pivotScanA less data pivot c fuel (a + 1)
    else a

/-- Go `for ; b < c && !data.Less(pivot, b); b++`. -/
def pivotScanB (less : BrokerRow → BrokerRow → Bool) (data : Array BrokerRow)
    (pivot c : Nat) : Nat → Nat → Nat
  | 0, b => b
  | fuel + 1, b =>
    if b < c && ¬ lessAt less data pivot b then pivotScanB less data pivot c fuel (b + 1)
    else b

/-- Go `for ; b < c && data.Less(pivot, c-1); c--`. -/
def pivotScanC (less : BrokerRow → BrokerRow → Bool) (data : Array BrokerRow)
    (pivot b : Nat) : Nat → Nat → Nat
  | 0, c => c
  | fuel + 1, c =>
    if b < c && lessAt less data pivot (c - 1) then pivotScanC less data pivot b fuel (c - 1)
    else c

/-- The partition exchange loop of `doPivot`. -/
def pivotPartLoop (less : BrokerRow → BrokerRow → Bool) (pivot : Nat) :
    Nat → Array BrokerRow → Nat → Nat → Array BrokerRow × Nat × Nat
  | 0, data, b, c => (data, b, c)
  | fuel + 1, data, b, c =>
    let b := pivotScanB less data pivot c (c + 1) b
    let c := pivotScanC less data pivot b (c + 1) c
    if b ≥ c then (data, b, c)
    else pivotPartLoop less pivot fuel (goSwap data b (c - 1)) (b + 1) (c - 1)

/-- Go `for ; a < b && !data.Less(b-1, pivot); b--` (duplicate protection). -/
def protScanB (less : BrokerRow → BrokerRow → Bool) (data : Array BrokerRow)
    (pivot a : Nat) : Nat → Nat → Nat
  | 0, b => b
  | fuel + 1, b =>
    if a < b && ¬ lessAt less data (b - 1) pivot then
      protScanB less data pivot a fuel (b - 1)
    else b

/-- Go `for ; a < b && data.Less(a, pivot); a++` (duplicate protection). -/
def protScanA (less : BrokerRow → BrokerRow → Bool) (data : Array BrokerRow)
    (pivot b : Nat) : Nat → Nat → Nat
  | 0, a => a
  | fuel + 1, a =>
    if a < b && lessAt less data a pivot then protScanA less data pivot b fuel (a + 1)
    else a

/-- The duplicate-protection exchange loop of `doPivot`. -/
def pivotProtectLoop (less : BrokerRow → BrokerRow → Bool) (pivot : Nat) :
    Nat → Array BrokerRow → Nat → Nat → Array BrokerRow × Nat × Nat
  | 0, data, a, b => (data, a, b)
  | fuel + 1, data, a, b =>
    let b := protScanB less data pivot a (b + 1) b
    let a := protScanA less data pivot b (b + 1) a
    if a ≥ b then (data, a, b)
    else pivotProtectLoop less pivot fuel (goSwap data a (b - 1)) (a + 1) (b - 1)

/-- Go `doPivot(data, lo, hi) → (midlo, midhi)` (median-of-three pivot
selection — Tukey ninther beyond 40 elements — three-way partition with
duplicate protection). -/
def doPivotGo (less : BrokerRow → BrokerRow → Bool) (data : Array BrokerRow)
    (lo hi : Nat) : Array BrokerRow × Nat × Nat :=
  let m := (lo + hi) / 2
  let data :=
    if hi - lo > 40 then
      let s := (hi - lo) / 8
      let data := medianOfThreeGo less data lo (lo + s) (lo + 2 * s)
      let data := medianOfThreeGo less data m (m - s) (m + s)
      medianOfThreeGo less data (hi - 1) (hi - 1 - s) (hi - 1 - 2 * s)
    else data
  let data := medianOfThreeGo less data lo m (hi - 1)
  let pivot := lo
  let c := hi - 1
  let a := pivotScanA less data pivot c (c + 1) (lo + 1)
  let part := pivotPartLoop less pivot (hi + 1) data a c
  let data := part.1
  let b := part.2.1
  let c := part.2.2
  let protect := hi - c < 5
  let tested :=
    if ¬ protect ∧ hi - c < (hi - lo) / 4 then
      let step1 :=
        if ¬ lessAt less data pivot (hi - 1) then
          (goSwap data c (hi - 1), c + 1, 1)
        else (data, c, 0)
      let data := step1.1
      let c := step1.2.1
      let dups := step1.2.2
      let step2 :=
        if ¬ lessAt less data (b - 1) pivot then (b - 1, dups + 1) else (b, dups)
      let b := step2.1
      let dups := step2.2
      let step3 :=
        if ¬ lessAt less data m pivot then
          (goSwap data m (b - 1), b - 1, dups + 1)
        else (data, b, dups)
      let data := step3.1
      let b := step3.2.1
      let dups := step3.2.2
      (data, b, c, decide (dups > 1))
    else (data, b, c, decide protect)
  let data := tested.1
  let b := tested.2.1
  let c := tested.2.2.1
  let protect := tested.2.2.2
  let afterProt :=
    if protect then pivotProtectLoop less pivot (hi + 1) data a b
    else (data, a, b)
  let data := afterProt.1
  let b := afterProt.2.2
  let data := goSwap data pivot (b - 1)
  (data, b - 1, c)

/-- The gap-6 shell pass run before `insertionSort` on ranges of at most 12
elements: `for i := a+6; i < b; i++ { if data.Less(i, i-6) { data.Swap(i, i-6) } }`. -/
def shellPassLoop (less : BrokerRow → BrokerRow → Bool) (b : Nat) :
    Nat → Array BrokerRow → Nat → Array BrokerRow
  | 0, data, _ => data
  | fuel + 1, data, i =>
    if i < b then
      shellPassLoop less b fuel
        (if lessAt less data i (i - 6) then goSwap data i (i - 6) else data) (i + 1)
    else data

/-- Go `quickSort(data, a, b, maxDepth)`: partition ranges longer than 12
(falling back to `heapSort` at depth 0), shell pass + insertion sort below.
`fuel` dominates the recursion depth of the transcription; it never runs
out on the calls evaluated here. -/
def quickSortGo (less : BrokerRow → BrokerRow → Bool) :
    Nat → Array BrokerRow → Nat → Nat → Nat → Array BrokerRow
  | 0, data, _, _, _ => data
  | fuel + 1, data, a, b, maxDepth =>
    if b - a > 12 then
      if maxDepth = 0 then heapSortGo less data a b
      else
        let md := maxDepth - 1
        let piv := doPivotGo less data a b
        let data := piv.1
        let mlo := piv.2.1
        let mhi := piv.2.2
        if mlo - a < b - mhi then
          let data := quickSortGo less fuel data a mlo md
          quickSortGo less fuel data mhi b md
        else
          let data := quickSortGo less fuel data mhi b md
          quickSortGo less fuel data a mlo md
    else
      if b - a > 1 then
        let data := shellPassLoop less b (b + 1) data (a + 6)
        insertionSortGo less data a b
      else data

/-- Go `maxDepth(n) = 2 × ⌈lg(n+1)⌉`, via the counting loop of the source. -/
def maxDepthLoop : Nat → Nat → Nat → Nat
  | 0, _, depth => depth
  | fuel + 1, i, depth =>
    if i > 0 then maxDepthLoop fuel (i / 2) (depth + 1) else depth

/-- Go `maxDepth(n)`. -/
def maxDepthGo (n : Nat) : Nat := 2 * maxDepthLoop n n 0

/-- Go `sort.Sort(data)` (pre-Go-1.19): `quickSort(data, 0, data.Len(), maxDepth(n))`. -/
def sortGo (less : BrokerRow → BrokerRow → Bool) (data : Array BrokerRow) :
    Array BrokerRow :=
  quickSortGo less (data.size + maxDepthGo data.size + 1) data 0 data.size
    (maxDepthGo data.size)

/-- Go `familySortedRows.Less`: strictly increasing timestamps. -/
def familySortedRowsLess (a b : BrokerRow) : Bool :=
  decide (a.timestamp < b.timestamp)

/-- Go `sort.Sort(itr.rows)` as invoked by the family iterator's `reset` on a
multi-family shard slice. -/
def goSortRowsByTs (l : List BrokerRow) : List BrokerRow :=
  (sortGo familySortedRowsLess l.toArray).toList

end LinDB

namespace LinDB

/-- A 7-row shard slice spanning two family windows (width 10): timestamps
`[10, 0, 0, 11, 12, 13, 0]`, with `hash` recording each row's ingestion
position. -/
def sliceUnstable : List BrokerRow :=
  [⟨10, 0, [0], 0, false⟩, ⟨0, 1, [1], 0, false⟩, ⟨0, 2, [2], 0, false⟩,
    ⟨11, 3, [3], 0, false⟩, ⟨12, 4, [4], 0, false⟩, ⟨13, 5, [5], 0, false⟩,
    ⟨0, 6, [6], 0, false⟩]

/-- C6, evaluated at the failing input.  The family iterator sorts a
multi-family shard slice with `sort.Sort`, which is not stable: on
`sliceUnstable` the gap-6 shell pass swaps positions 0 and 6, so the three
equal-timestamp rows ingested in order 1, 2, 6 are emitted inside their
family group in order 6, 1, 2 — ingestion order within a family is NOT
preserved, contradicting the stability the spec requires (`sort.Stable`
would be needed). -/
theorem familyIterator_sortSort_unstable :
    (goSortRowsByTs sliceUnstable).map (fun r => (r.timestamp, r.hash)) =
      [(0, 6), (0, 1), (0, 2), (10, 0), (11, 3), (12, 4), (13, 5)]
    ∧ (familyGroups goSortRowsByTs tenMsCalc sliceUnstable).map
        (fun p => (p.1, p.2.map (fun r => r.hash))) =
      [(0, [6, 1, 2]), (10, [0, 3, 4, 5])] := by
  exact ⟨by decide, by decide⟩

end LinDB
